import Mathlib

/-!
# Verification of the insurance-commission reconciliation core

Shallow embedding, in Lean 4, of the data-handling core of the
`cap-analytics` repository (Python/pandas):

* `src/normalizer/normalizer.py`   — `DataNormalizer` (field normalizers and
  the `normalize` pipeline),
* `src/utils/name_matcher.py`      — `normalize_name`, `are_similar_names`,
* `src/analyzer/performance_analyzer.py` — `calculate_top_performers`.

Modelling conventions:
* pandas scalar cells are modelled by `CellValue`: a missing value (`null`,
  standing for pandas `NaN`/`NaT`, for which `pd.isna` holds), a string, or a
  float.  Python floats are modelled by `PyFloat`: an exact rational, `nan`,
  `inf` or `-inf`.  Exact rationals stand in for IEEE doubles; none of the
  verified properties depends on binary rounding of individual arithmetic
  operations.
* a DataFrame is a list of named columns (`Batch`); the stages of the
  normalizer are column-wise, so row alignment is immaterial.
* string primitives (`str.strip`, `str.split`, `str.replace`,
  `str.capitalize`, `str.lower`, `float(...)`, `str(...)`) are re-implemented
  character-for-character for the ASCII range, which is the range the
  pipeline's fixed tables and formats use.
-/

/-! ## Python string and float primitives -/

/-- Python whitespace (`str.strip` / `str.split` with no argument):
space, tab, newline, carriage return, vertical tab, form feed. -/
def pyIsSpace (c : Char) : Bool :=
  c = ' ' || c = '\t' || c = '\n' || c = '\r' || c = '\x0b' || c = '\x0c'

/-- ASCII lower-casing of one character; definitionally equal to core
`Char.toLower`, spelled with explicit code-point arithmetic for proofs.
Python `str.lower` beyond ASCII is outside the pipeline's data. -/
def pyToLower (c : Char) : Char :=
  if c.toNat ≥ 65 ∧ c.toNat ≤ 90 then Char.ofNat (c.toNat + 32) else c

/-- ASCII upper-casing of one character (core `Char.toUpper`). -/
def pyToUpper (c : Char) : Char :=
  if c.toNat ≥ 97 ∧ c.toNat ≤ 122 then Char.ofNat (c.toNat - 32) else c

/-- `str.strip()` on a character list: drop whitespace from both ends. -/
def pyStripList (cs : List Char) : List Char :=
  ((cs.dropWhile pyIsSpace).reverse.dropWhile pyIsSpace).reverse

/-- `str.strip()`. -/
def pyStrip (s : String) : String :=
  String.mk (pyStripList s.toList)

/-- Accumulator pass of `str.split()`: `acc` is the word being read. -/
def pySplitWsAux : List Char → List Char → List (List Char)
  | [], acc => if acc.isEmpty then [] else [acc]
  | c :: cs, acc =>
    if pyIsSpace c then
      if acc.isEmpty then pySplitWsAux cs [] else acc :: pySplitWsAux cs []
    else pySplitWsAux cs (acc ++ [c])

/-- `str.split()` (no argument): split on runs of whitespace, no empty parts. -/
def pySplitWs (cs : List Char) : List (List Char) :=
  pySplitWsAux cs []

/-- `" ".join(words)` on character lists. -/
def joinSpace : List (List Char) → List Char
  | [] => []
  | [w] => w
  | w :: ws => w ++ ' ' :: joinSpace ws

/-- Value of a decimal digit character. -/
def digitVal (c : Char) : ℕ := c.toNat - '0'.toNat

/-- Base-10 value of a digit string (most significant first). -/
def charsToNat (cs : List Char) : ℕ :=
  cs.foldl (fun a c => 10 * a + digitVal c) 0

/-- A Python float: exact rational, or one of the non-finite values. -/
inductive PyFloat where
  | finite (q : ℚ)
  | nan
  | inf
  | ninf
  deriving DecidableEq, Repr

/-- Parse an unsigned decimal mantissa with optional fraction and exponent:
the grammar accepted by Python `float()` after sign stripping (underscores
between digits, accepted by CPython, are not modelled).  Returns `none` when
the text is not a valid float literal. -/
def parseDecimal (cs : List Char) : Option ℚ :=
  let ip := cs.takeWhile Char.isDigit
  let r1 := cs.dropWhile Char.isDigit
  match r1 with
  | [] => if ip.isEmpty then none else some (charsToNat ip)
  | '.' :: r2 =>
    let fp := r2.takeWhile Char.isDigit
    let r3 := r2.dropWhile Char.isDigit
    if ip.isEmpty && fp.isEmpty then none
    else
      let base : ℚ := charsToNat ip + (charsToNat fp : ℚ) / (10 : ℚ) ^ fp.length
      match r3 with
      | [] => some base
      | e :: r4 =>
        if e = 'e' || e = 'E' then
          match parseExpPart r4 with
          | some k => some (base * (10 : ℚ) ^ k)
          | none => none
        else none
  | e :: r4 =>
    if (e = 'e' || e = 'E') && !ip.isEmpty then
      match parseExpPart r4 with
      | some k => some ((charsToNat ip : ℚ) * (10 : ℚ) ^ k)
      | none => none
    else none
where
  /-- Exponent part after `e`/`E`: optional sign then digits. -/
  parseExpPart (cs : List Char) : Option ℤ :=
    let (sgn, body) : ℤ × List Char :=
      match cs with
      | '+' :: t => (1, t)
      | '-' :: t => (-1, t)
      | t => (1, t)
    if body.isEmpty || !body.all Char.isDigit then none
    else some (sgn * charsToNat body)

/-- ASCII lower-casing of a character list (`str.lower()`). -/
def lowerChars (cs : List Char) : List Char := cs.map pyToLower

/-- Python `float(s)` on a string: strips surrounding whitespace, accepts an
optional sign, then a decimal literal or the words `inf`/`infinity`/`nan`
(case-insensitive).  `none` models the `ValueError` branch. -/
def pyFloatOfString (s : String) : Option PyFloat :=
  let cs := pyStripList s.toList
  let neg : Bool := cs.head? = some '-'
  let body := if cs.head? = some '+' || cs.head? = some '-' then cs.drop 1 else cs
  let low := lowerChars body
  if low = ['i','n','f'] || low = ['i','n','f','i','n','i','t','y'] then
    some (if neg then PyFloat.ninf else PyFloat.inf)
  else if low = ['n','a','n'] then
    some PyFloat.nan
  else
    match parseDecimal body with
    | some q => some (PyFloat.finite (if neg then -q else q))
    | none => none

/-- A pandas cell: missing (`NaN`), a string, or a float. -/
inductive CellValue where
  | null
  | str (s : String)
  | num (f : PyFloat)
  deriving DecidableEq, Repr

/-- `pd.isna` on a cell: true for the missing value and for float `nan`. -/
def pdIsna : CellValue → Bool
  | CellValue.null => true
  | CellValue.num PyFloat.nan => true
  | _ => false

/-- Little-endian decimal digits of `n`, with enough fuel to terminate. -/
def natDigitsAux : ℕ → ℕ → List ℕ
  | 0, _ => []
  | _ + 1, 0 => []
  | fuel + 1, n => n % 10 :: natDigitsAux fuel (n / 10)

/-- Decimal digit characters of a natural number (no padding). -/
def natToChars (n : ℕ) : List Char :=
  if n = 0 then ['0'] else ((natDigitsAux n n).map Nat.digitChar).reverse

/-- Python `str(x)` for the cell values the pipeline stringifies.
`NaN` prints as `"nan"`; an integral float prints with a trailing `.0`,
as CPython does; non-integral and non-finite floats are given a
representative ASCII rendering (their exact digits are never load-bearing:
the pipeline only strips characters from them). -/
def pyStrCell : CellValue → String
  | CellValue.null => "nan"
  | CellValue.str s => s
  | CellValue.num PyFloat.nan => "nan"
  | CellValue.num PyFloat.inf => "inf"
  | CellValue.num PyFloat.ninf => "-inf"
  | CellValue.num (PyFloat.finite q) =>
    if q.den = 1 then
      String.mk ((if q < 0 then ['-'] else []) ++ natToChars q.num.natAbs ++ ['.', '0'])
    else
      String.mk ((if q < 0 then ['-'] else []) ++
        natToChars (q * 1000000).floor.natAbs)

/-- `str.replace(old, new)` on character lists: left-to-right, non-overlapping
replacement of every occurrence, as in CPython.  `fuel` bounds recursion; the
wrapper passes the list length, which suffices for a non-empty pattern. -/
def pyReplaceAux (pat rep : List Char) : ℕ → List Char → List Char
  | _, [] => []
  | 0, cs => cs
  | fuel + 1, c :: cs =>
    if pat ≠ [] ∧ pat.isPrefixOf (c :: cs) then
      rep ++ pyReplaceAux pat rep fuel ((c :: cs).drop pat.length)
    else
      c :: pyReplaceAux pat rep fuel cs

/-- `str.replace(old, new)` (non-empty `old`). -/
def pyReplace (s pat rep : String) : String :=
  String.mk (pyReplaceAux pat.toList rep.toList s.toList.length s.toList)

/-- Python `str.capitalize()`: first character upper-cased, the rest
lower-cased (ASCII model). -/
def pyCapitalize : List Char → List Char
  | [] => []
  | c :: cs => pyToUpper c :: cs.map pyToLower

/-! ## `src/utils/name_matcher.py` -/

/-- Characters kept by `re.sub(r'[^\w\s-]', '', name)`: word characters
(ASCII letters, digits, underscore), whitespace, and the hyphen. -/
def isWordSpaceHyphen (c : Char) : Bool :=
  c.isAlphanum || c = '_' || pyIsSpace c || c = '-'

/-- The business-suffix replacement table of `normalize_name`, in source
order.  Each pattern is wrapped in spaces and replaced by a single space. -/
def suffixPatterns : List String :=
  [" inc ", " incorporated ", " corp ", " corporation ", " llc ", " ltd ", " limited "]

/-- `name_matcher.normalize_name` on a string input (`pd.isna` is false for
every string, so the early-return branch is vacuous here):
lower-case and strip, collapse whitespace, drop characters outside
`[\w\s-]`, replace each space-wrapped business suffix, strip again. -/
def normalizeName (name : String) : String :=
  let s1 := lowerChars (pyStripList name.toList)
  let s2 := joinSpace (pySplitWs s1)
  let s3 := s2.filter isWordSpaceHyphen
  let s4 := suffixPatterns.foldl
    (fun acc pat => (pyReplace (String.mk acc) pat " ").toList) s3
  String.mk (pyStripList s4)

/-- Python `in` for strings: contiguous-substring containment. -/
def strContains (hay needle : List Char) : Bool :=
  match hay with
  | [] => needle.isEmpty
  | _ :: t => needle.isPrefixOf hay || strContains t needle

/-! ### `difflib.SequenceMatcher` (stdlib dependency of `are_similar_names`)

`ratio()` is `2*M/(len(a)+len(b))` where `M` is the total size of the
matching blocks found by the recursive Ratcliff–Obershelp procedure
(`find_longest_match` on nested intervals).  `isjunk` is `None`; `autojunk`
marks characters occurring more than `len(b)//100 + 1` times "popular" when
`len(b) >= 200`.  Recursion is expressed with explicit fuel, bounded by the
total interval size. -/

/-- One candidate state of the `find_longest_match` inner loop. -/
structure FlmBest where
  besti : ℕ
  bestj : ℕ
  bestk : ℕ
  deriving Repr

/-- `j2len` as a function from `j` to the length of the longest match
ending at `(i, j)`. -/
def flmScan (a b : List Char) (blo bhi : ℕ) (junk : Char → Bool)
    (i : ℕ) (j2len : ℕ → ℕ) : (ℕ → ℕ) × List (ℕ × ℕ) :=
  let ai := a.getD i ' '
  let js := (List.range b.length).filter
    (fun j => b.getD j ' ' = ai ∧ !junk (b.getD j ' ') ∧ blo ≤ j ∧ j < bhi)
  let pairs := js.map (fun j => (j, (if j = 0 then 0 else j2len (j - 1)) + 1))
  (fun j => ((pairs.lookup j).getD 0), pairs)

/-- The nested loops of `SequenceMatcher.find_longest_match` (before the
junk-extension passes): best block strictly improving on `bestk`, scanning
`i` ascending then `j` ascending. -/
def flmLoop (a b : List Char) (blo bhi : ℕ) (junk : Char → Bool) :
    ℕ → (ℕ → ℕ) → FlmBest → ℕ → FlmBest
  | _, _, best, 0 => best
  | i, j2len, best, fuel + 1 =>
    let (j2len', pairs) := flmScan a b blo bhi junk i j2len
    let best' := pairs.foldl
      (fun acc (jk : ℕ × ℕ) =>
        if jk.2 > acc.bestk then ⟨i + 1 - jk.2, jk.1 + 1 - jk.2, jk.2⟩ else acc)
      best
    flmLoop a b blo bhi junk (i + 1) j2len' best' fuel

/-- Extend the best block while adjacent characters on both sides match and
satisfy `keep` (models the two symmetric `while` loops; `keep` selects
non-junk first, then junk). -/
def flmExtend (a b : List Char) (alo blo ahi bhi : ℕ) (keep : Char → Bool) :
    FlmBest → ℕ → FlmBest
  | best, 0 => best
  | best, fuel + 1 =>
    let ⟨i, j, k⟩ := best
    if alo < i ∧ blo < j ∧ keep (b.getD (j - 1) ' ') ∧
        a.getD (i - 1) ' ' = b.getD (j - 1) ' ' then
      flmExtend a b alo blo ahi bhi keep ⟨i - 1, j - 1, k + 1⟩ fuel
    else if i + k < ahi ∧ j + k < bhi ∧ keep (b.getD (j + k) ' ') ∧
        a.getD (i + k) ' ' = b.getD (j + k) ' ' then
      flmExtend a b alo blo ahi bhi keep ⟨i, j, k + 1⟩ fuel
    else best

/-- `find_longest_match(alo, ahi, blo, bhi)`. -/
def findLongestMatch (a b : List Char) (junk : Char → Bool)
    (alo ahi blo bhi : ℕ) : FlmBest :=
  let best := flmLoop a b blo bhi junk alo (fun _ => 0) ⟨alo, blo, 0⟩ (ahi - alo)
  let best := flmExtend a b alo blo ahi bhi (fun c => !junk c) best (a.length + b.length)
  flmExtend a b alo blo ahi bhi junk best (a.length + b.length)

/-- Total matched size over the recursive block decomposition of
`get_matching_blocks`. -/
def matchTotal (a b : List Char) (junk : Char → Bool) :
    ℕ → ℕ → ℕ → ℕ → ℕ → ℕ
  | 0, _, _, _, _ => 0
  | fuel + 1, alo, ahi, blo, bhi =>
    let ⟨i, j, k⟩ := findLongestMatch a b junk alo ahi blo bhi
    if k = 0 then 0
    else
      (if alo < i ∧ blo < j then matchTotal a b junk fuel alo i blo j else 0) +
      k +
      (if i + k < ahi ∧ j + k < bhi then
        matchTotal a b junk fuel (i + k) ahi (j + k) bhi else 0)

/-- The autojunk "popular" test of `SequenceMatcher.__chain_b`. -/
def smJunk (b : List Char) (c : Char) : Bool :=
  b.length ≥ 200 && (b.count c > b.length / 100 + 1)

/-- `SequenceMatcher(None, a, b).ratio()` as an exact rational. -/
def smRatio (a b : List Char) : ℚ :=
  if a.length + b.length = 0 then 1
  else
    let m := matchTotal a b (smJunk b) (a.length + b.length + 1) 0 a.length 0 b.length
    (2 * m : ℚ) / (a.length + b.length : ℚ)

/-- `name_matcher.are_similar_names(name1, name2, threshold)`, straight from
the source: normalize both, reject blanks, then exact equality, substring
containment, the common-words cardinality test, and finally the
`SequenceMatcher` ratio against the threshold. -/
def areSimilarNames (name1 name2 : String) (threshold : ℚ) : Bool :=
  let n1 := normalizeName name1
  let n2 := normalizeName name2
  if n1.toList.isEmpty || n2.toList.isEmpty then false
  else if n1 = n2 then true
  else if strContains n2.toList n1.toList || strContains n1.toList n2.toList then true
  else
    let words1 := (pySplitWs n1.toList).map String.mk
    let words2 := (pySplitWs n2.toList).map String.mk
    let common := words1.toFinset ∩ words2.toFinset
    if common.card ≥ min words1.toFinset.card words2.toFinset.card then true
    else smRatio n1.toList n2.toList ≥ threshold

/-! ## `src/normalizer/normalizer.py` — `DataNormalizer`

A DataFrame is a list of named columns; every stage of `DataNormalizer`
rewrites whole columns independently, so no row structure is needed.
`DataNormalizer.__init__` copies the input frame; the pipeline below is the
`normalize` method on that copy. -/

/-- A named column of cells. -/
abbrev Column := String × List CellValue

/-- A batch (DataFrame): named columns. -/
abbrev Batch := List Column

/-- Apply `f` to the cells of every column named `name`. -/
def applyCol (name : String) (f : CellValue → CellValue) (c : Column) : Column :=
  if c.1 = name then (c.1, c.2.map f) else c

/-- `df[name] = df[name].apply(f)`-style column rewrite. -/
def mapColumn (name : String) (f : CellValue → CellValue) (b : Batch) : Batch :=
  b.map (applyCol name f)

/-- `name in df.columns`. -/
def hasColumn (b : Batch) (name : String) : Bool :=
  b.any (fun c => c.1 = name)

/-- `df[name]` (first column of that name; `[]` when absent). -/
def getColumn (b : Batch) (name : String) : List CellValue :=
  ((b.find? (fun c => c.1 = name)).map Prod.snd).getD []

/-! ### Date canonicalization (`normalize_dates`) -/

/-- A calendar date as parsed by `pd.to_datetime`. -/
structure PyDate where
  year : ℕ
  month : ℕ
  day : ℕ
  deriving DecidableEq, Repr

/-- Gregorian leap year. -/
def isLeap (y : ℕ) : Bool :=
  (y % 4 = 0 && y % 100 ≠ 0) || y % 400 = 0

/-- Days in a month (Gregorian). -/
def daysInMonth (y m : ℕ) : ℕ :=
  if m = 2 then (if isLeap y then 29 else 28)
  else if m = 4 || m = 6 || m = 9 || m = 11 then 30
  else 31

/-- Calendar validity as enforced by `pd.to_datetime` (year bounded to four
digits, the width `strftime('%Y')` emits). -/
def validDate (d : PyDate) : Bool :=
  1 ≤ d.year && d.year ≤ 9999 && 1 ≤ d.month && d.month ≤ 12 &&
  1 ≤ d.day && d.day ≤ daysInMonth d.year d.month

/-- Four digit characters. -/
def allDigits (cs : List Char) : Bool := cs.all Char.isDigit

/-- `YYYY-MM-DD` / `YYYY/MM/DD` (separator passed in). -/
def parseYmd (sep : Char) (cs : List Char) : Option PyDate :=
  match cs with
  | [y1, y2, y3, y4, s1, m1, m2, s2, d1, d2] =>
    if s1 = sep && s2 = sep && allDigits [y1, y2, y3, y4, m1, m2, d1, d2] then
      let d : PyDate := ⟨charsToNat [y1, y2, y3, y4], charsToNat [m1, m2], charsToNat [d1, d2]⟩
      if validDate d then some d else none
    else none
  | _ => none

/-- `MM/DD/YYYY`. -/
def parseMdy (cs : List Char) : Option PyDate :=
  match cs with
  | [m1, m2, '/', d1, d2, '/', y1, y2, y3, y4] =>
    if allDigits [m1, m2, d1, d2, y1, y2, y3, y4] then
      let d : PyDate := ⟨charsToNat [y1, y2, y3, y4], charsToNat [m1, m2], charsToNat [d1, d2]⟩
      if validDate d then some d else none
    else none
  | _ => none

/-- `DD-MM-YYYY`. -/
def parseDmy (cs : List Char) : Option PyDate :=
  match cs with
  | [d1, d2, '-', m1, m2, '-', y1, y2, y3, y4] =>
    if allDigits [d1, d2, m1, m2, y1, y2, y3, y4] then
      let d : PyDate := ⟨charsToNat [y1, y2, y3, y4], charsToNat [m1, m2], charsToNat [d1, d2]⟩
      if validDate d then some d else none
    else none
  | _ => none

/-- `pd.to_datetime(.., format='mixed', errors='coerce')` on one cell, over
the zero-padded layouts the pipeline feeds it (`YYYY-MM-DD`, `YYYY/MM/DD`,
`MM/DD/YYYY`, `DD-MM-YYYY`); anything else coerces to `NaT`. -/
def parseMixedDate : CellValue → Option PyDate
  | CellValue.str s =>
    let cs := s.toList
    (parseYmd '-' cs).orElse fun _ =>
      (parseYmd '/' cs).orElse fun _ =>
        (parseMdy cs).orElse fun _ => parseDmy cs
  | _ => none

/-- Two-digit zero-padded field (`strftime` `%m`/`%d`). -/
def pad2 (n : ℕ) : List Char :=
  [Nat.digitChar (n / 10 % 10), Nat.digitChar (n % 10)]

/-- Four-digit zero-padded field (`strftime` `%Y` for years up to 9999). -/
def pad4 (n : ℕ) : List Char :=
  [Nat.digitChar (n / 1000 % 10), Nat.digitChar (n / 100 % 10),
   Nat.digitChar (n / 10 % 10), Nat.digitChar (n % 10)]

/-- `.dt.strftime('%Y-%m-%d')`. -/
def fmtIsoDate (d : PyDate) : String :=
  String.mk (pad4 d.year ++ '-' :: pad2 d.month ++ '-' :: pad2 d.day)

/-- One cell of `normalize_dates`: parse (coercing failures to `NaT`), then
format; `NaT.strftime` leaves the missing value. -/
def dateStep (v : CellValue) : CellValue :=
  match parseMixedDate v with
  | some d => CellValue.str (fmtIsoDate d)
  | none => CellValue.null

/-- The four date columns of `normalize_dates`. -/
def dateColumns : List String :=
  ["enrollment_date", "disenrollment_date", "effective_date", "processed_date"]

/-! ### Amount cleaning (`normalize_amounts` / `clean_amount`) -/

/-- `clean_amount` from `normalize_amounts`, straight from the source:
missing → `0.0`; numbers pass through `float(val)`; strings are stripped of
`$` and `,` and whitespace, a parenthesized value is rewritten with a leading
minus, a `-$` prefix is rewritten, and the result is parsed with `float`;
a failed parse returns `0.0`. -/
def cleanAmount (val : CellValue) : PyFloat :=
  if pdIsna val then PyFloat.finite 0
  else
    match val with
    | CellValue.num f => f
    | CellValue.str s =>
      let s1 := pyStripList ((s.toList.filter (· ≠ '$')).filter (· ≠ ','))
      let s2 :=
        if s1.head? = some '(' ∧ s1.getLast? = some ')' then
          '-' :: (s1.drop 1).dropLast
        else s1
      let s3 := if s2.take 2 = ['-', '$'] then '-' :: s2.drop 2 else s2
      match pyFloatOfString (String.mk s3) with
      | some f => f
      | none => PyFloat.finite 0
    | CellValue.null => PyFloat.finite 0

/-- One cell of the amounts column after `apply(clean_amount).astype(float)`. -/
def amountStep (v : CellValue) : CellValue := CellValue.num (cleanAmount v)

/-! ### Name normalization (`normalize_names` / `clean_name`) -/

/-- `clean_name`: missing or blank-after-strip becomes the sentinel
`"Unknown Agent"`; otherwise strip, split on whitespace, capitalize each
word and re-join with single spaces. -/
def cleanName (v : CellValue) : CellValue :=
  if pdIsna v then CellValue.str "Unknown Agent"
  else
    let st := pyStripList (pyStrCell v).toList
    if st.isEmpty then CellValue.str "Unknown Agent"
    else CellValue.str (String.mk (joinSpace ((pySplitWs st).map pyCapitalize)))

/-! ### Transaction types (`standardize_transaction_types`) -/

/-- The fixed synonym table `transaction_mapping`. -/
def transactionMapping : List (String × String) :=
  [("new", "New"), ("renewal", "Renewal"), ("renew", "Renewal"),
   ("cancel", "Cancellation"), ("cancellation", "Cancellation"),
   ("terminate", "Termination"), ("termination", "Termination"),
   ("adjustment", "Adjustment"), ("adj", "Adjustment"),
   ("bonus", "Bonus"), ("commission", "Commission"),
   ("reversal", "Reversal"), ("correction", "Correction")]

/-- One cell of `.str.lower().map(transaction_mapping).fillna('Other')`:
`.str.lower` yields the missing value on a non-string cell, dict lookup is
by exact (lower-cased) key, and `fillna` turns every miss into `"Other"`. -/
def txnStep (v : CellValue) : CellValue :=
  match v with
  | CellValue.str s =>
    match transactionMapping.lookup (String.mk (lowerChars s.toList)) with
    | some t => CellValue.str t
    | none => CellValue.str "Other"
  | _ => CellValue.str "Other"

/-- pandas dtype inference for the `.str` accessor: a column whose cells are
all numbers-or-missing, with at least one number, is a numeric
(`int64`/`float64`) column, and `.str` raises `AttributeError` on it.
A column with any string cell (or with no cells at all) is `object` and the
accessor works, mapping non-strings to the missing value. -/
def isNumericDtype (vs : List CellValue) : Bool :=
  vs.all (fun v => match v with | CellValue.num _ => true | CellValue.null => true | _ => false) &&
  vs.any (fun v => match v with | CellValue.num _ => true | _ => false)

/-! ### Member identifiers (`clean_member_ids`) -/

/-- One cell of `.astype(str).str.strip().str.replace(r'[^a-zA-Z0-9]','')`. -/
def idStep (v : CellValue) : CellValue :=
  CellValue.str (String.mk ((pyStripList (pyStrCell v).toList).filter Char.isAlphanum))

/-! ### The pipeline (`normalize`) -/

/-- `normalize_dates`: rewrite each of the four date columns when present. -/
def normalizeDates (b : Batch) : Batch :=
  dateColumns.foldl (fun acc col => if hasColumn acc col then mapColumn col dateStep acc else acc) b

/-- `normalize_amounts`: unconditional access to `commission_amount`
(`KeyError` when the column is absent), then `apply(clean_amount)`. -/
def normalizeAmounts (b : Batch) : Except String Batch :=
  if hasColumn b "commission_amount" then
    Except.ok (mapColumn "commission_amount" amountStep b)
  else
    Except.error "KeyError: commission_amount"

/-- `normalize_names`: `clean_name` over `agent_name` then `agency_name`,
each only when the column is present. -/
def normalizeNames (b : Batch) : Batch :=
  let b1 := if hasColumn b "agent_name" then mapColumn "agent_name" cleanName b else b
  if hasColumn b1 "agency_name" then mapColumn "agency_name" cleanName b1 else b1

/-- `standardize_transaction_types`: when the column is present, `.str.lower`
raises `AttributeError` on a numeric-dtype column, else map + fillna. -/
def standardizeTransactionTypes (b : Batch) : Except String Batch :=
  if hasColumn b "transaction_type" then
    if isNumericDtype (getColumn b "transaction_type") then
      Except.error "AttributeError: Can only use .str accessor with string values"
    else
      Except.ok (mapColumn "transaction_type" txnStep b)
  else Except.ok b

/-- `clean_member_ids`. -/
def cleanMemberIds (b : Batch) : Batch :=
  if hasColumn b "member_id" then mapColumn "member_id" idStep b else b

/-- The four required fields of `validate_required_fields`. -/
def requiredFields : List String :=
  ["carrier_name", "commission_period", "agent_name", "commission_amount"]

/-- `validate_required_fields`'s repair of missing amounts:
`data.loc[data['commission_amount'].isna(), 'commission_amount'] = 0.0`. -/
def fixNaAmount (v : CellValue) : CellValue :=
  if pdIsna v then CellValue.num (PyFloat.finite 0) else v

/-- `validate_required_fields`: `ValueError` when a required column is
absent; otherwise missing commission amounts are set to `0.0` (with a
logged warning). -/
def validateRequiredFields (b : Batch) : Except String Batch :=
  if requiredFields.all (fun f => hasColumn b f) then
    Except.ok (mapColumn "commission_amount" fixNaAmount b)
  else
    Except.error "Missing required fields"

/-- `DataNormalizer.normalize`: the five stages in source order, then
required-field validation.  A raise at any stage propagates (the method's
`except` clause re-raises), so no partial batch is ever returned.
(Named with the class prefix because Mathlib already has a `normalize`.) -/
def DataNormalizer.normalize (b : Batch) : Except String Batch := do
  let b1 := normalizeDates b
  let b2 ← normalizeAmounts b1
  let b3 := normalizeNames b2
  let b4 ← standardizeTransactionTypes b3
  let b5 := cleanMemberIds b4
  validateRequiredFields b5

/-- The composite cell transform one `normalize` pass applies to a column of
the given name. -/
def colFun (n : String) : CellValue → CellValue :=
  if n ∈ dateColumns then dateStep
  else if n = "commission_amount" then fun v => fixNaAmount (amountStep v)
  else if n = "agent_name" then cleanName
  else if n = "agency_name" then cleanName
  else if n = "transaction_type" then txnStep
  else if n = "member_id" then idStep
  else id

/-! ## `src/analyzer/performance_analyzer.py` — `calculate_top_performers`

The analyzer only reads four fields of the (already normalized) batch;
a row is modelled by those fields, with the commission amount already
numeric (`pd.to_numeric(...).fillna(0.0)` has run, with exact rationals
standing in for floats). -/

/-- One row as read by the analyzer. -/
structure TxnRow where
  agent_name : String
  carrier_name : String
  commission_period : String
  commission_amount : ℚ
  deriving DecidableEq, Repr

/-- One leaderboard entry. -/
structure LeaderboardEntry where
  agent_name : String
  total_commission : ℚ
  avg_commission : ℚ
  transaction_count : ℕ
  carriers : String
  deriving DecidableEq, Repr

/-- `Series.unique()`: values in order of first appearance. -/
def uniqueFirst (xs : List String) : List String :=
  xs.foldl (fun acc a => if a ∈ acc then acc else acc ++ [a]) []

/-- Python string `<`: lexicographic on code points. -/
def lexLt : List Char → List Char → Bool
  | [], [] => false
  | [], _ :: _ => true
  | _ :: _, [] => false
  | c :: cs, d :: ds => if c = d then lexLt cs ds else decide (c < d)

/-- Insert into a list sorted by `le`. -/
def insertBy (le : α → α → Bool) (a : α) : List α → List α
  | [] => [a]
  | b :: bs => if le a b then a :: b :: bs else b :: insertBy le a bs

/-- Insertion sort by `le`. -/
def sortBy (le : α → α → Bool) : List α → List α
  | [] => []
  | a :: as => insertBy le a (sortBy le as)

/-- Python `sorted` on strings. -/
def sortedStrings (xs : List String) : List String :=
  sortBy (fun a b => !lexLt b.toList a.toList) xs

/-- `', '.join(xs)`. -/
def joinCommaSpace : List String → String
  | [] => ""
  | [x] => x
  | x :: xs => x ++ ", " ++ joinCommaSpace xs

/-- Decimal rendering of a natural number (for `f'Agent_{i+1}'`). -/
def natToStr (n : ℕ) : String := String.mk (natToChars n)

/-- Round half to even to an integer, as IEEE/numpy rounding does on the
exact value. -/
def bankersRound (x : ℚ) : ℤ :=
  if x - ⌊x⌋ < 1 / 2 then ⌊x⌋
  else if 1 / 2 < x - ⌊x⌋ then ⌊x⌋ + 1
  else if Even ⌊x⌋ then ⌊x⌋ else ⌊x⌋ + 1

/-- `Series.round(2)`. -/
def rnd2 (q : ℚ) : ℚ := (bankersRound (q * 100) : ℚ) / 100

/-- The final verification loop of step 9: `values[i] < values[i+1]` for some
`i` raises the sort error. -/
def checkSortedDesc : List ℚ → Bool
  | [] => true
  | [_] => true
  | a :: b :: t => !(a < b : Bool) && checkSortedDesc (b :: t)

/-- The per-agent aggregation (step 2 of `calculate_top_performers`) over the
period-filtered rows, agents in first-appearance order. -/
def agentEntries (period : String) (data : List TxnRow) : List LeaderboardEntry :=
  let df := data.filter (fun r => r.commission_period = period)
  (uniqueFirst (df.map (·.agent_name))).map (fun a =>
    let rows := df.filter (fun r => r.agent_name = a)
    let total : ℚ := (rows.map (·.commission_amount)).sum
    { agent_name := a
      total_commission := total
      avg_commission := total / rows.length
      transaction_count := rows.length
      carriers := joinCommaSpace (sortedStrings (uniqueFirst (rows.map (·.carrier_name)))) })

/-- Steps 3–5: sort by `total_commission` descending, then round both
commission figures to two decimals. -/
def rankedEntries (period : String) (data : List TxnRow) : List LeaderboardEntry :=
  (sortBy (fun e1 e2 => e2.total_commission ≤ e1.total_commission)
    (agentEntries period data)).map
    (fun e => { e with
      total_commission := rnd2 e.total_commission
      avg_commission := rnd2 e.avg_commission })

/-- The synthetic filler row of step 7. -/
def placeholderEntry (k : ℕ) : LeaderboardEntry :=
  { agent_name := "Agent_" ++ natToStr k
    total_commission := 0
    avg_commission := 0
    transaction_count := 0
    carriers := "N/A" }

/-- `PerformanceAnalyzer.calculate_top_performers(n, period)`.
An empty aggregation gives `pd.DataFrame([])`, which has no
`total_commission` column, so step 3's `sort_values` raises `KeyError`;
step 9 raises the sort error when the padded, truncated totals are not
non-increasing. -/
def calculateTopPerformers (n : ℕ) (period : String) (data : List TxnRow) :
    Except String (List LeaderboardEntry) :=
  let totals := agentEntries period data
  if totals.isEmpty then Except.error "KeyError: total_commission"
  else
    let result := rankedEntries period data
    let padded :=
      if result.length < n then
        result ++ (List.range' (result.length + 1) (n - result.length)).map placeholderEntry
      else result
    let final := padded.take n
    if checkSortedDesc (final.map (·.total_commission)) then Except.ok final
    else Except.error "Sort error"


/-! ## Named steps of the amount-cleaning algorithm, and spec-side models

The following definitions re-state, under their spec names, the algorithms
the specification describes; the theorems below compare them with the
functions embedded from the source. -/

/-- Strip the currency symbol and thousands separators, then surrounding
whitespace (`val.replace('$','').replace(',','').strip()`). -/
def stripCurrencySeparators (cs : List Char) : List Char :=
  pyStripList ((cs.filter (· ≠ '$')).filter (· ≠ ','))

/-- Rewrite a parenthesized value to a leading-minus value. -/
def rewriteParenNegative (cs : List Char) : List Char :=
  if cs.head? = some '(' ∧ cs.getLast? = some ')' then '-' :: (cs.drop 1).dropLast
  else cs

/-- Rewrite a leading `-$` prefix. -/
def rewriteDollarMinus (cs : List Char) : List Char :=
  if cs.take 2 = ['-', '$'] then '-' :: cs.drop 2 else cs

/-- Parse as float, defaulting to `0.0`. -/
def parseFloatOrZero (cs : List Char) : PyFloat :=
  (pyFloatOfString (String.mk cs)).getD (PyFloat.finite 0)

/-- The amount-cleaning algorithm exactly as the spec words it: strip
symbols/separators, rewrite parenthesized negatives, rewrite `-$`, parse;
on a failed parse, strip all characters other than digits, sign and dot and
retry once before defaulting to zero. -/
def cleanAmountClaimed (s : String) : PyFloat :=
  let s3 := rewriteDollarMinus (rewriteParenNegative (stripCurrencySeparators s.toList))
  match pyFloatOfString (String.mk s3) with
  | some f => f
  | none => parseFloatOrZero (s3.filter (fun c => c.isDigit || c = '-' || c = '+' || c = '.'))

/-- The same algorithm without the fallback retry: a failed parse defaults
to zero immediately. -/
def cleanAmountNoFallback (s : String) : PyFloat :=
  parseFloatOrZero (rewriteDollarMinus (rewriteParenNegative (stripCurrencySeparators s.toList)))

/-- The numeral of an amount string: integer digits plus optional fraction. -/
def moneyCore (ds : List Char) (frac : Option (List Char)) : List Char :=
  ds ++ (match frac with | none => [] | some fs => '.' :: fs)

/-- Mathematical value of such a numeral. -/
def moneyValue (ds : List Char) (frac : Option (List Char)) : ℚ :=
  (charsToNat ds : ℚ) +
    (match frac with | none => 0 | some fs => (charsToNat fs : ℚ) / (10 : ℚ) ^ fs.length)

/-- Optional accounting parentheses around a numeral. -/
def parenWrap (paren : Bool) (core : List Char) : List Char :=
  if paren then '(' :: core ++ [')'] else core

/-- The closed transaction-type vocabulary of the spec. -/
def txnVocab : List String :=
  ["New", "Renewal", "Cancellation", "Termination", "Adjustment",
   "Bonus", "Commission", "Reversal", "Correction", "Other"]

/-- The transaction-type matcher as the spec words it: case-insensitive
substring/synonym lookup against the fixed table, `Other` when unmatched. -/
def txnStepClaimed (label : String) : String :=
  match transactionMapping.find?
      (fun kv => strContains (lowerChars label.toList) kv.1.toList) with
  | some kv => kv.2
  | none => "Other"

/-- The whitespace-delimited token set of a (normalized) name. -/
def tokenFinset (s : String) : Finset String :=
  ((pySplitWs s.toList).map String.mk).toFinset

/-- `are_similar` as the spec words it: blank names are never similar, then
four short-circuiting layers — equality, substring containment, containment
of the token set with fewer tokens in the other, sequence-similarity ratio
against the threshold. -/
def areSimilarSpec (name1 name2 : String) (threshold : ℚ) : Bool :=
  let n1 := normalizeName name1
  let n2 := normalizeName name2
  if n1.toList.isEmpty || n2.toList.isEmpty then false
  else
    (n1 = n2) || strContains n2.toList n1.toList || strContains n1.toList n2.toList ||
    (if (tokenFinset n1).card ≤ (tokenFinset n2).card then
      decide (tokenFinset n1 ⊆ tokenFinset n2)
    else decide (tokenFinset n2 ⊆ tokenFinset n1)) ||
    decide (smRatio n1.toList n2.toList ≥ threshold)

/-! ## Concrete inputs used by witnesses and counterexamples -/

/-- The three-record scenario of spec §8 (post-normalization). -/
def johnJaneRows : List TxnRow :=
  [⟨"John Smith", "A", "2024-06", 100⟩,
   ⟨"John Smith", "B", "2024-06", 50⟩,
   ⟨"Jane Doe", "A", "2024-06", 30⟩]

/-- A single normalized row with a negative commission total. -/
def negativeRow : List TxnRow := [⟨"A", "C", "2024-06", -50⟩]

/-- A batch with all four required columns and a numeric-dtype
`transaction_type` column. -/
def txnNumericBatch : Batch :=
  [("carrier_name", [CellValue.str "A"]),
   ("commission_period", [CellValue.str "2024-06"]),
   ("agent_name", [CellValue.str "x"]),
   ("commission_amount", [CellValue.num (PyFloat.finite 1)]),
   ("transaction_type", [CellValue.num (PyFloat.finite 3)])]

/-- A small well-formed batch exercising every stage. -/
def sampleBatch : Batch :=
  [("carrier_name", [CellValue.str "A"]),
   ("commission_period", [CellValue.str "2024-06"]),
   ("agent_name", [CellValue.str "  john   SMITH ", CellValue.null]),
   ("agency_name", [CellValue.null, CellValue.str "Acme"]),
   ("commission_amount", [CellValue.num (PyFloat.finite 100), CellValue.null]),
   ("transaction_type", [CellValue.str "RENEWAL", CellValue.null]),
   ("member_id", [CellValue.null, CellValue.str " ab-12 "]),
   ("enrollment_date", [CellValue.str "06/15/2024", CellValue.str "bad"])]


/-- Decidable equality on `Except` results, for evaluating the pipeline on
concrete batches. -/
instance {e a : Type} [DecidableEq e] [DecidableEq a] : DecidableEq (Except e a) :=
  fun x y =>
    match x, y with
    | Except.ok u, Except.ok v =>
      if h : u = v then isTrue (by rw [h]) else isFalse (fun he => h (by injection he))
    | Except.error u, Except.error v =>
      if h : u = v then isTrue (by rw [h]) else isFalse (fun he => h (by injection he))
    | Except.ok _, Except.error _ => isFalse (fun he => Except.noConfusion he)
    | Except.error _, Except.ok _ => isFalse (fun he => Except.noConfusion he)

/-! ## Structural lemmas about the pipeline -/

theorem applyCol_fst (n : String) (f : CellValue → CellValue) (c : Column) :
    (applyCol n f c).1 = c.1 := by
  unfold applyCol; split <;> rfl

theorem hasColumn_mapColumn (n m : String) (f : CellValue → CellValue) (b : Batch) :
    hasColumn (mapColumn n f b) m = hasColumn b m := by
  unfold hasColumn mapColumn
  rw [List.any_map]
  have he : ((fun c : Column => decide (c.1 = m)) ∘ applyCol n f) =
      (fun c : Column => decide (c.1 = m)) := by
    funext c
    simp [applyCol_fst]
  rw [he]

theorem mapColumn_absent (n : String) (f : CellValue → CellValue) (b : Batch)
    (h : hasColumn b n = false) : mapColumn n f b = b := by
  unfold mapColumn
  have : ∀ c ∈ b, applyCol n f c = c := by
    intro c hc
    unfold applyCol
    have hall : ∀ (a : String) (vs : List CellValue), (a, vs) ∈ b → ¬a = n := by
      simpa [hasColumn] using h
    have hne : ¬(c.1 = n) := fun he => hall c.1 c.2 (by simpa using hc) he
    simp [hne]
  calc b.map (applyCol n f) = b.map id := List.map_congr_left this
    _ = b := List.map_id b

theorem stageIf (n : String) (f : CellValue → CellValue) (b : Batch) :
    (if hasColumn b n then mapColumn n f b else b) = mapColumn n f b := by
  by_cases h : hasColumn b n
  · simp [h]
  · simp only [Bool.not_eq_true] at h
    simp [h, mapColumn_absent n f b h]

theorem find?_mapColumn (n m : String) (f : CellValue → CellValue) (b : Batch) :
    (mapColumn n f b).find? (fun c => c.1 = m) =
      (b.find? (fun c => c.1 = m)).map (applyCol n f) := by
  unfold mapColumn
  rw [List.find?_map]
  have he : ((fun c : Column => decide (c.1 = m)) ∘ applyCol n f) =
      (fun c : Column => decide (c.1 = m)) := by
    funext c
    simp [applyCol_fst]
  rw [he]

theorem getColumn_mapColumn_ne (n m : String) (f : CellValue → CellValue) (b : Batch)
    (h : m ≠ n) : getColumn (mapColumn n f b) m = getColumn b m := by
  unfold getColumn
  rw [find?_mapColumn]
  cases hf : b.find? (fun c => c.1 = m) with
  | none => rfl
  | some c =>
    have hc : c.1 = m := by simpa using List.find?_some hf
    simp [applyCol, hc, h]

theorem getColumn_mapColumn_eq (n : String) (f : CellValue → CellValue) (b : Batch) :
    getColumn (mapColumn n f b) n = (getColumn b n).map f := by
  unfold getColumn
  rw [find?_mapColumn]
  cases hf : b.find? (fun c => c.1 = n) with
  | none => rfl
  | some c =>
    have hc : c.1 = n := by simpa using List.find?_some hf
    simp [applyCol, hc]

theorem except_bind_ok {α β : Type} (a : α) (f : α → Except String β) :
    ((Except.ok a : Except String α) >>= f) = f a := rfl

theorem except_bind_error {α β : Type} (e : String) (f : α → Except String β) :
    ((Except.error e : Except String α) >>= f) = Except.error e := rfl

theorem normalize_spec (b : Batch) :
    DataNormalizer.normalize b =
      if hasColumn b "commission_amount" = false then
        Except.error "KeyError: commission_amount"
      else if hasColumn b "transaction_type" &&
          isNumericDtype (getColumn b "transaction_type") then
        Except.error "AttributeError: Can only use .str accessor with string values"
      else if (requiredFields.all (fun f => hasColumn b f)) = false then
        Except.error "Missing required fields"
      else Except.ok (b.map (fun c => (c.1, c.2.map (colFun c.1)))) := by
  have hdates : normalizeDates b =
      mapColumn "processed_date" dateStep (mapColumn "effective_date" dateStep
        (mapColumn "disenrollment_date" dateStep
          (mapColumn "enrollment_date" dateStep b))) := by
    simp only [normalizeDates, dateColumns, List.foldl_cons, List.foldl_nil, stageIf]
  have hnorm : DataNormalizer.normalize b =
      normalizeAmounts (normalizeDates b) >>= fun b2 =>
        standardizeTransactionTypes (normalizeNames b2) >>= fun b4 =>
          validateRequiredFields (cleanMemberIds b4) := rfl
  by_cases hamt : hasColumn b "commission_amount"
  · have hamt1 : hasColumn (normalizeDates b) "commission_amount" = true := by
      rw [hdates]; simpa [hasColumn_mapColumn] using hamt
    set b2 := mapColumn "commission_amount" amountStep (normalizeDates b) with hb2
    have hstep2 : normalizeAmounts (normalizeDates b) = Except.ok b2 := by
      simp [normalizeAmounts, hamt1]
    have hnames : normalizeNames b2 =
        mapColumn "agency_name" cleanName (mapColumn "agent_name" cleanName b2) := by
      simp only [normalizeNames, stageIf]
    set b3 := mapColumn "agency_name" cleanName (mapColumn "agent_name" cleanName b2) with hb3
    have htxncol : hasColumn b3 "transaction_type" = hasColumn b "transaction_type" := by
      rw [hb3, hb2, hdates]; simp [hasColumn_mapColumn]
    have htxnvals : getColumn b3 "transaction_type" = getColumn b "transaction_type" := by
      rw [hb3, hb2, hdates]
      rw [getColumn_mapColumn_ne _ _ _ _ (by decide), getColumn_mapColumn_ne _ _ _ _ (by decide),
        getColumn_mapColumn_ne _ _ _ _ (by decide), getColumn_mapColumn_ne _ _ _ _ (by decide),
        getColumn_mapColumn_ne _ _ _ _ (by decide), getColumn_mapColumn_ne _ _ _ _ (by decide),
        getColumn_mapColumn_ne _ _ _ _ (by decide)]
    rw [hnorm, hstep2, except_bind_ok, hnames]
    by_cases htx : hasColumn b "transaction_type" &&
        isNumericDtype (getColumn b "transaction_type")
    · have ht1 : hasColumn b3 "transaction_type" = true := by
        rw [htxncol]
        rcases Bool.and_eq_true_iff.mp htx with ⟨h1, _⟩
        exact h1
      have ht2 : isNumericDtype (getColumn b3 "transaction_type") = true := by
        rw [htxnvals]
        rcases Bool.and_eq_true_iff.mp htx with ⟨_, h2⟩
        exact h2
      have hstx : standardizeTransactionTypes b3 =
          Except.error "AttributeError: Can only use .str accessor with string values" := by
        simp [standardizeTransactionTypes, ht1, ht2]
      rw [hstx, except_bind_error]
      simp [hamt, htx]
    · have hstx : standardizeTransactionTypes b3 =
          Except.ok (mapColumn "transaction_type" txnStep b3) := by
        unfold standardizeTransactionTypes
        by_cases hc : hasColumn b3 "transaction_type"
        · have hnd : isNumericDtype (getColumn b3 "transaction_type") = false := by
            rw [htxnvals]
            rcases Bool.and_eq_false_iff.mp (Bool.eq_false_iff.mpr htx) with h | h
            · rw [htxncol] at hc; simp [hc] at h
            · exact h
          simp [hc, hnd]
        · simp only [Bool.not_eq_true] at hc
          simp [hc, mapColumn_absent _ _ _ hc]
      set b4 := mapColumn "transaction_type" txnStep b3 with hb4
      have hids : cleanMemberIds b4 = mapColumn "member_id" idStep b4 := by
        simp only [cleanMemberIds, stageIf]
      set b5 := mapColumn "member_id" idStep b4 with hb5
      have hreq : (requiredFields.all (fun f => hasColumn b5 f)) =
          (requiredFields.all (fun f => hasColumn b f)) := by
        simp only [requiredFields, List.all_cons, List.all_nil]
        rw [hb5, hb4, hb3, hb2, hdates]
        simp [hasColumn_mapColumn]
      rw [hstx, except_bind_ok, hids]
      by_cases hrq : (requiredFields.all (fun f => hasColumn b f)) = false
      · have hrq5 : (requiredFields.all (fun f => hasColumn b5 f)) = false := by
          rw [hreq]; exact hrq
        have hv : validateRequiredFields b5 = Except.error "Missing required fields" := by
          simp [validateRequiredFields, hrq5]
        rw [hv]
        simp [hamt, htx, hrq]
      · have hrq5 : (requiredFields.all (fun f => hasColumn b5 f)) = true := by
          rw [hreq]; simpa using hrq
        have hfinal : mapColumn "commission_amount" fixNaAmount b5 =
            b.map (fun c => (c.1, c.2.map (colFun c.1))) := by
          rw [hb5, hb4, hb3, hb2, hdates]
          simp only [mapColumn, List.map_map]
          apply List.map_congr_left
          intro c _
          obtain ⟨n, vs⟩ := c
          by_cases h1 : n = "enrollment_date"
          · subst h1; simp [Function.comp, applyCol, colFun, dateColumns, List.map_map]
          by_cases h2 : n = "disenrollment_date"
          · subst h2; simp [Function.comp, applyCol, colFun, dateColumns, List.map_map]
          by_cases h3 : n = "effective_date"
          · subst h3; simp [Function.comp, applyCol, colFun, dateColumns, List.map_map]
          by_cases h4 : n = "processed_date"
          · subst h4; simp [Function.comp, applyCol, colFun, dateColumns, List.map_map]
          by_cases h5 : n = "commission_amount"
          · subst h5; simp [Function.comp, applyCol, colFun, fixNaAmount, dateColumns, List.map_map]
          by_cases h6 : n = "agent_name"
          · subst h6; simp [Function.comp, applyCol, colFun, dateColumns, List.map_map]
          by_cases h7 : n = "agency_name"
          · subst h7; simp [Function.comp, applyCol, colFun, dateColumns, List.map_map]
          by_cases h8 : n = "transaction_type"
          · subst h8; simp [Function.comp, applyCol, colFun, dateColumns, List.map_map]
          by_cases h9 : n = "member_id"
          · subst h9; simp [Function.comp, applyCol, colFun, dateColumns, List.map_map]
          · simp [Function.comp, applyCol, colFun, dateColumns,
              h1, h2, h3, h4, h5, h6, h7, h8, h9]
        have hv : validateRequiredFields b5 =
            Except.ok (b.map (fun c => (c.1, c.2.map (colFun c.1)))) := by
          have : validateRequiredFields b5 =
              Except.ok (mapColumn "commission_amount" fixNaAmount b5) := by
            simp [validateRequiredFields, hrq5]
          rw [this, hfinal]
        rw [hv]
        simp [hamt, htx, hrq]
  · simp only [Bool.not_eq_true] at hamt
    have hamt1 : hasColumn (normalizeDates b) "commission_amount" = false := by
      rw [hdates]; simpa [hasColumn_mapColumn] using hamt
    have hstep2 : normalizeAmounts (normalizeDates b) =
        Except.error "KeyError: commission_amount" := by
      simp [normalizeAmounts, hamt1]
    rw [hnorm, hstep2]
    simp [hamt]
    rfl

/-! ## Character-level lemmas -/

theorem toNat_ofNat_valid (n : ℕ) (h : n < 55296) : (Char.ofNat n).toNat = n := by
  have hv : n.isValidChar := Or.inl h
  simp [Char.ofNat, hv, Char.ofNatAux, Char.toNat, UInt32.toNat, BitVec.ofNatLt]

theorem char_eq_iff_toNat (c d : Char) : c = d ↔ c.toNat = d.toNat := by
  constructor
  · intro h; rw [h]
  · intro h
    conv_lhs => rw [← Char.ofNat_toNat c]
    rw [h, Char.ofNat_toNat]

theorem pyToUpper_pyToUpper (c : Char) : pyToUpper (pyToUpper c) = pyToUpper c := by
  unfold pyToUpper
  by_cases h : c.toNat ≥ 97 ∧ c.toNat ≤ 122
  · have h2 : (Char.ofNat (c.toNat - 32)).toNat = c.toNat - 32 :=
      toNat_ofNat_valid _ (by omega)
    rw [if_pos h, if_neg (by rw [h2]; omega)]
  · rw [if_neg h, if_neg h]

theorem pyToLower_pyToLower (c : Char) : pyToLower (pyToLower c) = pyToLower c := by
  unfold pyToLower
  by_cases h : c.toNat ≥ 65 ∧ c.toNat ≤ 90
  · have h2 : (Char.ofNat (c.toNat + 32)).toNat = c.toNat + 32 :=
      toNat_ofNat_valid _ (by have := c.val.toBitVec.isLt; omega)
    rw [if_pos h, if_neg (by rw [h2]; omega)]
  · rw [if_neg h, if_neg h]

theorem pyIsSpace_toNat (c : Char) : pyIsSpace c =
    decide (c.toNat = 32 ∨ c.toNat = 9 ∨ c.toNat = 10 ∨ c.toNat = 13 ∨
      c.toNat = 11 ∨ c.toNat = 12) := by
  unfold pyIsSpace
  simp only [char_eq_iff_toNat,
    show (' ' : Char).toNat = 32 from rfl, show ('\t' : Char).toNat = 9 from rfl,
    show ('\n' : Char).toNat = 10 from rfl, show ('\r' : Char).toNat = 13 from rfl,
    show ('\x0b' : Char).toNat = 11 from rfl, show ('\x0c' : Char).toNat = 12 from rfl]
  rcases h32 : decide (c.toNat = 32) <;> rcases h9 : decide (c.toNat = 9) <;>
    rcases h10 : decide (c.toNat = 10) <;> rcases h13 : decide (c.toNat = 13) <;>
    rcases h11 : decide (c.toNat = 11) <;> rcases h12 : decide (c.toNat = 12) <;>
    simp_all

theorem pyIsSpace_pyToUpper (c : Char) : pyIsSpace (pyToUpper c) = pyIsSpace c := by
  unfold pyToUpper
  by_cases h : c.toNat ≥ 97 ∧ c.toNat ≤ 122
  · have h2 : (Char.ofNat (c.toNat - 32)).toNat = c.toNat - 32 :=
      toNat_ofNat_valid _ (by omega)
    rw [if_pos h, pyIsSpace_toNat, pyIsSpace_toNat, h2, decide_eq_decide]
    omega
  · rw [if_neg h]

theorem pyIsSpace_pyToLower (c : Char) : pyIsSpace (pyToLower c) = pyIsSpace c := by
  unfold pyToLower
  by_cases h : c.toNat ≥ 65 ∧ c.toNat ≤ 90
  · have h2 : (Char.ofNat (c.toNat + 32)).toNat = c.toNat + 32 :=
      toNat_ofNat_valid _ (by have := c.val.toBitVec.isLt; omega)
    rw [if_pos h, pyIsSpace_toNat, pyIsSpace_toNat, h2, decide_eq_decide]
    omega
  · rw [if_neg h]

/-! ## C8 — `normalize_name` and legal-entity suffixes -/

/-- C8 counterexample: the suffix patterns are wrapped in spaces on *both*
sides, so a trailing suffix is never removed: `normalize_name("Acme Corp.")`
is `"acme corp"`, not `"acme"`, and the claimed equality fails. -/
theorem normalize_name_suffix_counterexample :
    normalizeName "Acme Corp." = "acme corp" ∧ normalizeName "Acme" = "acme" ∧
    normalizeName "Acme Corp." ≠ normalizeName "Acme" := by
  refine ⟨?_, ?_, ?_⟩ <;> decide

/-- C8 amended: `normalize_name` lower-cases, strips punctuation and removes
a legal-entity suffix only when it occurs in the interior (wrapped by spaces
on both sides); suffixed and unsuffixed variants compare equal exactly in
that interior position. -/
theorem normalize_name_amended :
    normalizeName "Acme Corp Holdings" = normalizeName "Acme Holdings" ∧
    normalizeName "Acme Corp Holdings" = "acme holdings" ∧
    normalizeName "ACME  Incorporated  Group" = "acme group" ∧
    normalizeName "John. Smith," = "john smith" ∧
    normalizeName "Acme Corp." = "acme corp" := by
  refine ⟨?_, ?_, ?_, ?_, ?_⟩ <;> decide

theorem lookup_mem_pairs {α β : Type} [BEq α] [LawfulBEq α]
    (l : List (α × β)) (a : α) (b : β) (h : l.lookup a = some b) : (a, b) ∈ l := by
  induction l with
  | nil => simp [List.lookup] at h
  | cons p t ih =>
    obtain ⟨k, v⟩ := p
    by_cases hk : a == k
    · simp only [List.lookup, hk] at h
      have hv : v = b := by injection h
      have hak : a = k := by simpa using hk
      subst hv; subst hak
      exact List.mem_cons_self _ _
    · have hk' : (a == k) = false := by simpa using hk
      simp only [List.lookup, hk'] at h
      exact List.mem_cons_of_mem _ (ih h)

/-! ## C6 — transaction-type mapping -/

/-- C6 counterexample: the synonym `new` occurs as a substring of the label
`"New Enrollment"`, and the spec's substring matcher maps it to `New`, but
the code does an exact dictionary lookup after lower-casing and yields
`Other`. -/
theorem txn_substring_counterexample :
    strContains (lowerChars "New Enrollment".toList) "new".toList = true ∧
    ("new", "New") ∈ transactionMapping ∧
    txnStep (CellValue.str "New Enrollment") = CellValue.str "Other" ∧
    txnStepClaimed "New Enrollment" = "New" := by
  refine ⟨?_, ?_, ?_, ?_⟩ <;> decide

/-- C6 amended: every cell maps into the closed vocabulary; matching is a
case-insensitive *exact* lookup of the lower-cased label in the synonym
table (not substring matching), and any label whose lower-cased form is not
a key — as well as any non-string cell — maps to `Other`. -/
theorem txn_closed_vocabulary :
    (∀ v : CellValue, ∃ t ∈ txnVocab, txnStep v = CellValue.str t) ∧
    (∀ s : String,
      transactionMapping.lookup (String.mk (lowerChars s.toList)) = none →
        txnStep (CellValue.str s) = CellValue.str "Other") ∧
    (∀ s t, transactionMapping.lookup (String.mk (lowerChars s.toList)) = some t →
        txnStep (CellValue.str s) = CellValue.str t) ∧
    (∀ f : PyFloat, txnStep (CellValue.num f) = CellValue.str "Other") ∧
    txnStep CellValue.null = CellValue.str "Other" := by
  refine ⟨?_, ?_, ?_, ?_, ?_⟩
  · intro v
    match v with
    | CellValue.null => exact ⟨"Other", by decide, rfl⟩
    | CellValue.num f => exact ⟨"Other", by decide, rfl⟩
    | CellValue.str s =>
      cases hl : transactionMapping.lookup (String.mk (lowerChars s.toList)) with
      | none =>
        refine ⟨"Other", by decide, ?_⟩
        simp only [String.toList] at hl
        simp [txnStep, hl]
      | some t =>
        have hmem : (String.mk (lowerChars s.toList), t) ∈ transactionMapping :=
          lookup_mem_pairs _ _ _ hl
        have hvoc : ∀ p ∈ transactionMapping, p.2 ∈ txnVocab := by decide
        refine ⟨t, hvoc _ hmem, ?_⟩
        simp only [String.toList] at hl
        simp [txnStep, hl]
  · intro s hl
    simp only [String.toList] at hl
    simp [txnStep, hl]
  · intro s t hl
    simp only [String.toList] at hl
    simp [txnStep, hl]
  · intro f; rfl
  · rfl

/-- C6 witness: the amended theorem applied at an unmatched label and at a
matched one. -/
theorem txn_closed_vocabulary_witness :
    txnStep (CellValue.str "zzz") = CellValue.str "Other" ∧
    txnStep (CellValue.str "RENEWAL") = CellValue.str "Renewal" := by
  constructor
  · exact txn_closed_vocabulary.2.1 "zzz" (by decide)
  · exact txn_closed_vocabulary.2.2.1 "RENEWAL" "Renewal" (by decide)

/-! ## C5 — the amount-cleaning algorithm -/

theorem cleanAmount_str (s : String) :
    cleanAmount (CellValue.str s) = cleanAmountNoFallback s := by
  unfold cleanAmount cleanAmountNoFallback parseFloatOrZero stripCurrencySeparators
    rewriteParenNegative rewriteDollarMinus
  simp only [pdIsna, Bool.false_eq_true, if_false]
  split
  · next f heq => rw [heq]; rfl
  · next heq => rw [heq]; rfl

/-- C5 counterexample: on `"USD 100"` the first parse fails; the spec's
fallback (keep digits, sign, dot; retry) would produce `100.0`, but the code
has no fallback and returns `0.0`. -/
theorem clean_amount_fallback_counterexample :
    cleanAmount (CellValue.str "USD 100") = PyFloat.finite 0 ∧
    cleanAmountClaimed "USD 100" = PyFloat.finite 100 ∧
    cleanAmount (CellValue.str "USD 100") ≠ cleanAmountClaimed "USD 100" := by
  refine ⟨?_, ?_, ?_⟩ <;> with_unfolding_all decide

/-- C5 amended: `clean_amount` strips the currency symbol and thousands
separators, rewrites a parenthesized value to a leading-minus value,
rewrites a leading `-$` prefix, then parses as float — and if that parse
fails it defaults to `0.0` immediately, with no retry. -/
theorem clean_amount_algorithm (s : String) :
    cleanAmount (CellValue.str s) = cleanAmountNoFallback s :=
  cleanAmount_str s

/-! ## C4 — value correctness of the amount cleaner -/

theorem takeWhile_append_of_all {α} (p : α → Bool) (l r : List α)
    (h : ∀ c ∈ l, p c = true) : (l ++ r).takeWhile p = l ++ r.takeWhile p := by
  induction l with
  | nil => simp
  | cons a t ih =>
    simp only [List.cons_append, List.takeWhile_cons, h a (by simp)]
    rw [ih (fun c hc => h c (by simp [hc]))]
    simp

theorem dropWhile_append_of_all {α} (p : α → Bool) (l r : List α)
    (h : ∀ c ∈ l, p c = true) : (l ++ r).dropWhile p = r.dropWhile p := by
  induction l with
  | nil => simp
  | cons a t ih =>
    simp only [List.cons_append, List.dropWhile_cons, h a (by simp)]
    exact ih (fun c hc => h c (by simp [hc]))

theorem dropWhile_eq_self_of_head {α} (p : α → Bool) (cs : List α)
    (h : ∀ c, cs.head? = some c → p c = false) : cs.dropWhile p = cs := by
  cases cs with
  | nil => rfl
  | cons a t => simp [List.dropWhile_cons, h a rfl]

theorem pyStripList_eq_self (cs : List Char)
    (h1 : ∀ c, cs.head? = some c → pyIsSpace c = false)
    (h2 : ∀ c, cs.getLast? = some c → pyIsSpace c = false) :
    pyStripList cs = cs := by
  unfold pyStripList
  rw [dropWhile_eq_self_of_head _ _ h1]
  rw [dropWhile_eq_self_of_head _ _ (fun c hc => h2 c (by rwa [List.head?_reverse] at hc))]
  exact List.reverse_reverse cs

theorem isDigit_iff (c : Char) : c.isDigit = true ↔ 48 ≤ c.toNat ∧ c.toNat ≤ 57 := by
  unfold Char.isDigit
  rw [Bool.and_eq_true]
  constructor
  · rintro ⟨ha, hb⟩
    exact ⟨by exact UInt32.le_def.mp (by simpa using ha),
           by exact UInt32.le_def.mp (by simpa using hb)⟩
  · rintro ⟨ha, hb⟩
    constructor
    · simpa using UInt32.le_def.mpr (by simpa using ha)
    · simpa using UInt32.le_def.mpr (by simpa using hb)

theorem pyIsSpace_of_digit (c : Char) (h : c.isDigit = true) : pyIsSpace c = false := by
  rw [pyIsSpace_toNat]
  have := (isDigit_iff c).mp h
  simp only [decide_eq_false_iff_not]
  omega

theorem pyToLower_of_digit (c : Char) (h : c.isDigit = true) : pyToLower c = c := by
  unfold pyToLower
  have := (isDigit_iff c).mp h
  rw [if_neg (by omega)]

theorem digit_ne (c : Char) (h : c.isDigit = true) (d : Char)
    (hd : d.toNat < 48 ∨ 57 < d.toNat) : c ≠ d := by
  have := (isDigit_iff c).mp h
  intro he
  rw [char_eq_iff_toNat] at he
  omega

theorem takeWhile_all {α} (p : α → Bool) (l : List α) (h : ∀ c ∈ l, p c = true) :
    l.takeWhile p = l := by
  have := takeWhile_append_of_all p l [] h
  simpa using this

theorem dropWhile_all {α} (p : α → Bool) (l : List α) (h : ∀ c ∈ l, p c = true) :
    l.dropWhile p = [] := by
  have := dropWhile_append_of_all p l [] h
  simpa using this

theorem parseDecimal_core (ds : List Char) (frac : Option (List Char))
    (hds : ds ≠ []) (hd : ∀ c ∈ ds, c.isDigit = true)
    (hf : ∀ fs, frac = some fs → ∀ c ∈ fs, c.isDigit = true) :
    parseDecimal (moneyCore ds frac) = some (moneyValue ds frac) := by
  have hipe : ds.isEmpty = false := by
    cases ds with
    | nil => exact absurd rfl hds
    | cons a t => rfl
  cases frac with
  | none =>
    unfold moneyCore
    simp only [parseDecimal]
    rw [List.append_nil, takeWhile_all _ _ hd, dropWhile_all _ _ hd]
    simp [hipe, moneyValue]
  | some fs =>
    have hfs : ∀ c ∈ fs, c.isDigit = true := hf fs rfl
    unfold moneyCore
    simp only [parseDecimal]
    rw [takeWhile_append_of_all _ _ _ hd, dropWhile_append_of_all _ _ _ hd]
    rw [show List.takeWhile Char.isDigit ('.' :: fs) = [] from by
      simp [List.takeWhile_cons]]
    rw [show List.dropWhile Char.isDigit ('.' :: fs) = '.' :: fs from by
      simp [List.dropWhile_cons]]
    rw [List.append_nil]
    simp only [takeWhile_all _ _ hfs, dropWhile_all _ _ hfs]
    simp [hipe, moneyValue]

theorem lowerChars_of_digit_dot (l : List Char)
    (h : ∀ c ∈ l, c.isDigit = true ∨ c = '.') : lowerChars l = l := by
  unfold lowerChars
  rw [List.map_congr_left, List.map_id]
  intro c hc
  rcases h c hc with hd | hd
  · exact pyToLower_of_digit c hd
  · subst hd; rfl

theorem moneyCore_chars (ds : List Char) (frac : Option (List Char))
    (hd : ∀ c ∈ ds, c.isDigit = true)
    (hf : ∀ fs, frac = some fs → ∀ c ∈ fs, c.isDigit = true) :
    ∀ c ∈ moneyCore ds frac, c.isDigit = true ∨ c = '.' := by
  intro c hc
  unfold moneyCore at hc
  rcases List.mem_append.mp hc with h | h
  · exact Or.inl (hd c h)
  · cases frac with
    | none => simp at h
    | some fs =>
      simp only at h
      rcases List.mem_cons.mp h with h | h
      · exact Or.inr h
      · exact Or.inl (hf fs rfl c h)

theorem pyFloatOfString_signed (sgn : Bool) (body : List Char) (v : ℚ)
    (hne : body ≠ [])
    (hch : ∀ c ∈ body, c.isDigit = true ∨ c = '.')
    (hhd : ∀ c, body.head? = some c → c.isDigit = true)
    (hparse : parseDecimal body = some v) :
    pyFloatOfString (String.mk ((if sgn then ['-'] else []) ++ body)) =
      some (PyFloat.finite (if sgn then -v else v)) := by
  obtain ⟨c0, rest, rfl⟩ : ∃ c0 rest, body = c0 :: rest := by
    cases body with
    | nil => exact absurd rfl hne
    | cons a t => exact ⟨a, t, rfl⟩
  have hc0 : c0.isDigit = true := hhd c0 rfl
  have hnospace : ∀ c ∈ c0 :: rest, pyIsSpace c = false := by
    intro c hc
    rcases hch c hc with h | h
    · exact pyIsSpace_of_digit c h
    · subst h; rfl
  have hstrip : pyStripList ((if sgn then ['-'] else []) ++ c0 :: rest) =
      (if sgn then ['-'] else []) ++ c0 :: rest := by
    apply pyStripList_eq_self
    · intro c hc
      cases sgn with
      | true =>
        simp only [if_true, List.cons_append, List.head?_cons] at hc
        injection hc with hc
        subst hc; rfl
      | false =>
        rw [if_neg (by simp), List.nil_append, List.head?_cons] at hc
        injection hc with hc
        subst hc
        exact pyIsSpace_of_digit c0 hc0
    · intro c hc
      have hmem : c ∈ (if sgn then ['-'] else []) ++ c0 :: rest :=
        List.mem_of_mem_getLast? hc
      rcases List.mem_append.mp hmem with h | h
      · cases sgn with
        | true =>
          simp only [if_true, List.mem_singleton] at h
          subst h
          rw [if_pos rfl, List.singleton_append, List.getLast?_cons_cons] at hc
          exact hnospace _ (List.mem_of_mem_getLast? hc)
        | false => simp at h
      · exact hnospace c h
  have hlow : lowerChars (c0 :: rest) = c0 :: rest := lowerChars_of_digit_dot _ hch
  have hc0i : c0 ≠ 'i' := digit_ne c0 hc0 'i' (by right; decide)
  have hc0n : c0 ≠ 'n' := digit_ne c0 hc0 'n' (by right; decide)
  have hc0p : c0 ≠ '+' := digit_ne c0 hc0 '+' (by left; decide)
  have hc0m : c0 ≠ '-' := digit_ne c0 hc0 '-' (by left; decide)
  unfold pyFloatOfString
  rw [show (String.mk ((if sgn then ['-'] else []) ++ c0 :: rest)).toList
      = (if sgn then ['-'] else []) ++ c0 :: rest from rfl]
  rw [hstrip]
  cases sgn with
  | true =>
    simp only [if_true, List.singleton_append, List.head?_cons, List.drop_succ_cons,
      List.drop_zero]
    simp only [show decide (some '-' = some ('+' : Char)) = false from by decide,
      decide_True, Bool.or_true, if_true, hlow]
    rw [if_neg (by simp [hc0i]), if_neg (by simp [hc0n]), hparse]
  | false =>
    simp only [if_false, Bool.false_eq_true, List.nil_append, List.head?_cons]
    have e1 : decide (some c0 = some ('+' : Char)) = false := by simp [hc0p]
    have e2 : decide (some c0 = some ('-' : Char)) = false := by simp [hc0m]
    simp only [e1, e2, Bool.or_self, Bool.false_eq_true, if_false, hlow]
    rw [if_neg (by simp [hc0i]), if_neg (by simp [hc0n]), hparse]

theorem pyFloatOfString_money (sgn : Bool) (ds : List Char) (frac : Option (List Char))
    (hds : ds ≠ []) (hd : ∀ c ∈ ds, c.isDigit = true)
    (hf : ∀ fs, frac = some fs → ∀ c ∈ fs, c.isDigit = true) :
    pyFloatOfString (String.mk ((if sgn then ['-'] else []) ++ moneyCore ds frac)) =
      some (PyFloat.finite
        (if sgn then -(moneyValue ds frac) else moneyValue ds frac)) := by
  obtain ⟨d0, ds', rfl⟩ : ∃ d0 ds', ds = d0 :: ds' := by
    cases ds with
    | nil => exact absurd rfl hds
    | cons a t => exact ⟨a, t, rfl⟩
  apply pyFloatOfString_signed
  · unfold moneyCore
    intro h
    exact hds (List.append_eq_nil.mp h).1
  · exact moneyCore_chars _ frac hd hf
  · intro c hc
    unfold moneyCore at hc
    rw [List.cons_append, List.head?_cons] at hc
    injection hc with hc
    subst hc
    exact hd d0 (by simp)
  · exact parseDecimal_core _ frac hds hd hf

theorem filter_dollar_comma (cs : List Char) :
    (cs.filter (· ≠ '$')).filter (· ≠ ',') =
      cs.filter (fun c => !(c = '$' || c = ',')) := by
  rw [List.filter_filter]
  congr 1
  funext c
  by_cases h1 : c = '$' <;> by_cases h2 : c = ',' <;> simp [h1, h2]

theorem pyStripList_eq_self_of_mem (cs : List Char)
    (h : ∀ c ∈ cs, pyIsSpace c = false) : pyStripList cs = cs :=
  pyStripList_eq_self cs
    (fun c hc => h c (List.mem_of_mem_head? hc))
    (fun c hc => h c (List.mem_of_mem_getLast? hc))

theorem parenWrap_chars (paren : Bool) (core : List Char) :
    ∀ c ∈ parenWrap paren core, c ∈ core ∨ c = '(' ∨ c = ')' := by
  intro c hc
  unfold parenWrap at hc
  cases paren with
  | true =>
    simp only [if_true] at hc
    rcases List.mem_cons.mp hc with h | h
    · exact Or.inr (Or.inl h)
    · rcases List.mem_append.mp h with h | h
      · exact Or.inl h
      · simp only [List.mem_singleton] at h
        exact Or.inr (Or.inr h)
  | false => exact Or.inl (by simpa using hc)

theorem rewriteParen_true (core : List Char) :
    rewriteParenNegative ('(' :: core ++ [')']) = '-' :: core := by
  unfold rewriteParenNegative
  rw [if_pos]
  · rw [show ('(' :: core ++ [')']).drop 1 = core ++ [')'] from rfl,
      List.dropLast_concat]
  · constructor
    · rfl
    · rw [show ('(' :: core ++ [')']) = (('(' :: core) ++ [')']) from rfl,
        List.getLast?_concat]

theorem rewriteParen_noop (cs : List Char)
    (h : ∀ c, cs.head? = some c → c ≠ '(') : rewriteParenNegative cs = cs := by
  unfold rewriteParenNegative
  rw [if_neg]
  rintro ⟨h1, _⟩
  cases cs with
  | nil => simp at h1
  | cons a t =>
    rw [List.head?_cons] at h1
    injection h1 with h1
    exact h a rfl h1

theorem rewriteDollar_noop (cs : List Char) (h : cs.take 2 ≠ ['-', '$']) :
    rewriteDollarMinus cs = cs := by
  unfold rewriteDollarMinus
  rw [if_neg h]

theorem cleanAmount_money (s : String) (paren : Bool) (ds : List Char)
    (frac : Option (List Char))
    (hds : ds ≠ []) (hdall : allDigits ds = true)
    (hfall : ∀ fs, frac = some fs → allDigits fs = true)
    (hs : s.toList.filter (fun c => !(c = '$' || c = ',')) =
      parenWrap paren (moneyCore ds frac)) :
    cleanAmount (CellValue.str s) =
      PyFloat.finite ((if paren then (-1 : ℚ) else 1) * moneyValue ds frac) := by
  have hd : ∀ c ∈ ds, c.isDigit = true := by
    intro c hc; exact List.all_eq_true.mp hdall c hc
  have hf : ∀ fs, frac = some fs → ∀ c ∈ fs, c.isDigit = true := by
    intro fs hfs c hc; exact List.all_eq_true.mp (hfall fs hfs) c hc
  obtain ⟨d0, ds', rfl⟩ : ∃ d0 ds', ds = d0 :: ds' := by
    cases ds with
    | nil => exact absurd rfl hds
    | cons a t => exact ⟨a, t, rfl⟩
  have hd0 : d0.isDigit = true := hd d0 (by simp)
  have hchars := moneyCore_chars (d0 :: ds') frac hd hf
  obtain ⟨rest, hcore0⟩ : ∃ rest, moneyCore (d0 :: ds') frac = d0 :: rest := by
    cases frac with
    | none => exact ⟨ds', by unfold moneyCore; simp⟩
    | some fs => exact ⟨ds' ++ '.' :: fs, by unfold moneyCore; simp⟩
  have hnospace : ∀ c ∈ parenWrap paren (moneyCore (d0 :: ds') frac), pyIsSpace c = false := by
    intro c hc
    rcases parenWrap_chars paren _ c hc with h | h | h
    · rcases hchars c h with h' | h'
      · exact pyIsSpace_of_digit c h'
      · subst h'; rfl
    · subst h; rfl
    · subst h; rfl
  have hstripcs : stripCurrencySeparators s.toList =
      parenWrap paren (moneyCore (d0 :: ds') frac) := by
    unfold stripCurrencySeparators
    rw [filter_dollar_comma, hs]
    exact pyStripList_eq_self_of_mem _ hnospace
  rw [cleanAmount_str]
  unfold cleanAmountNoFallback
  rw [hstripcs]
  cases paren with
  | true =>
    rw [show parenWrap true (moneyCore (d0 :: ds') frac) =
        '(' :: moneyCore (d0 :: ds') frac ++ [')'] from rfl]
    rw [rewriteParen_true]
    rw [rewriteDollar_noop _ (by
      rw [hcore0]
      simp only [List.take_succ_cons, List.take_zero]
      intro he
      injection he with _ he2
      injection he2 with he2
      exact digit_ne d0 hd0 '$' (by left; decide) he2)]
    unfold parseFloatOrZero
    rw [show ('-' :: moneyCore (d0 :: ds') frac) =
        (if true then ['-'] else []) ++ moneyCore (d0 :: ds') frac from rfl]
    rw [pyFloatOfString_money true _ frac hds hd hf]
    simp [Option.getD]
  | false =>
    rw [show parenWrap false (moneyCore (d0 :: ds') frac) =
        moneyCore (d0 :: ds') frac from rfl]
    rw [rewriteParen_noop _ (by
      rw [hcore0]
      intro c hc
      rw [List.head?_cons] at hc
      injection hc with hc
      subst hc
      exact digit_ne d0 hd0 '(' (by left; decide))]
    rw [rewriteDollar_noop _ (by
      rw [hcore0]
      simp only [List.take_succ_cons]
      intro he
      injection he with he1 _
      exact digit_ne d0 hd0 '-' (by left; decide) he1)]
    unfold parseFloatOrZero
    rw [show moneyCore (d0 :: ds') frac =
        (if false then ['-'] else []) ++ moneyCore (d0 :: ds') frac from rfl]
    rw [pyFloatOfString_money false _ frac hds hd hf]
    simp [Option.getD]

/-- C4: the amount cleaner is total (it returns a float for every cell and
never raises, which the `PyFloat`-valued embedding shows by type): numeric
inputs pass through, missing inputs (`None`/`NaN`) and unparsable strings
coerce to `0.0`, and every amount string made of an optional currency
symbol, thousands-separator commas and an optionally parenthesized numeral
evaluates to the mathematically equivalent value — in particular
`clean_amount("$(1,234.50)") = -1234.50`. -/
theorem clean_amount_value_correct :
    (∀ q : ℚ, cleanAmount (CellValue.num (PyFloat.finite q)) = PyFloat.finite q) ∧
    cleanAmount (CellValue.num PyFloat.inf) = PyFloat.inf ∧
    cleanAmount CellValue.null = PyFloat.finite 0 ∧
    cleanAmount (CellValue.num PyFloat.nan) = PyFloat.finite 0 ∧
    (∀ s : String,
      pyFloatOfString (String.mk (rewriteDollarMinus (rewriteParenNegative
        (stripCurrencySeparators s.toList)))) = none →
      cleanAmount (CellValue.str s) = PyFloat.finite 0) ∧
    (∀ (s : String) (paren : Bool) (ds : List Char) (frac : Option (List Char)),
      ds ≠ [] → allDigits ds = true → (∀ fs, frac = some fs → allDigits fs = true) →
      s.toList.filter (fun c => !(c = '$' || c = ',')) =
        parenWrap paren (moneyCore ds frac) →
      cleanAmount (CellValue.str s) =
        PyFloat.finite ((if paren then (-1 : ℚ) else 1) * moneyValue ds frac)) ∧
    cleanAmount (CellValue.str "$(1,234.50)") = PyFloat.finite (-(12345 / 10)) := by
  refine ⟨fun q => rfl, rfl, rfl, rfl, ?_, ?_, ?_⟩
  · intro s h
    rw [cleanAmount_str]
    unfold cleanAmountNoFallback parseFloatOrZero
    rw [h]
    rfl
  · intro s paren ds frac h1 h2 h3 h4
    exact cleanAmount_money s paren ds frac h1 h2 h3 h4
  · have h := cleanAmount_money "$(1,234.50)" true ['1', '2', '3', '4']
      (some ['5', '0']) (by decide) (by decide)
      (by intro fs hfs; cases hfs; decide) (by decide)
    rw [h]
    unfold moneyValue
    norm_num [show charsToNat ['1', '2', '3', '4'] = 1234 from by decide,
      show charsToNat ['5', '0'] = 50 from by decide]

/-- C4 witness: the universal components applied at concrete inputs. -/
theorem clean_amount_value_correct_witness :
    cleanAmount (CellValue.str "$(1,234.50)") =
      PyFloat.finite ((if true then (-1 : ℚ) else 1) *
        moneyValue ['1', '2', '3', '4'] (some ['5', '0'])) ∧
    cleanAmount (CellValue.str "garbage") = PyFloat.finite 0 := by
  constructor
  · exact clean_amount_value_correct.2.2.2.2.2.1 "$(1,234.50)" true
      ['1', '2', '3', '4'] (some ['5', '0']) (by decide) (by decide)
      (by intro fs hfs; cases hfs; decide) (by decide)
  · exact clean_amount_value_correct.2.2.2.2.1 "garbage" (by with_unfolding_all decide)

/-! ## C7 — layered name similarity -/

theorem card_inter_min_iff {α : Type} [DecidableEq α] (s t : Finset α) :
    (min s.card t.card ≤ (s ∩ t).card) ↔
      (if s.card ≤ t.card then s ⊆ t else t ⊆ s) := by
  by_cases h : s.card ≤ t.card
  · rw [if_pos h, min_eq_left h]
    constructor
    · intro hc
      exact Finset.inter_eq_left.mp
        (Finset.eq_of_subset_of_card_le Finset.inter_subset_left hc)
    · intro hsub
      rw [Finset.inter_eq_left.mpr hsub]
  · rw [if_neg h, min_eq_right (le_of_not_le h)]
    constructor
    · intro hc
      exact Finset.inter_eq_right.mp
        (Finset.eq_of_subset_of_card_le Finset.inter_subset_right hc)
    · intro hsub
      rw [Finset.inter_eq_right.mpr hsub]

set_option maxHeartbeats 2000000 in
theorem are_similar_layers_eq (a b : String) (t : ℚ) :
    areSimilarNames a b t = areSimilarSpec a b t := by
  unfold areSimilarNames areSimilarSpec tokenFinset
  dsimp only []
  set n1 := normalizeName a with hn1
  set n2 := normalizeName b with hn2
  set w1 := (List.map String.mk (pySplitWs n1.toList)).toFinset with hw1
  set w2 := (List.map String.mk (pySplitWs n2.toList)).toFinset with hw2
  set r := smRatio n1.toList n2.toList with hr
  clear_value r
  clear_value w1 w2
  clear_value n1 n2
  cases he : (n1.toList.isEmpty || n2.toList.isEmpty) with
  | true => simp only [he, if_true]
  | false =>
    simp only [he, Bool.false_eq_true, if_false]
    by_cases heq : n1 = n2
    · simp [heq]
    · simp only [heq, decide_False, Bool.false_or, if_false]
      cases hsub : (strContains n2.toList n1.toList || strContains n1.toList n2.toList) with
      | true => simp [hsub]
      | false =>
        simp only [hsub, Bool.false_eq_true, if_false, Bool.false_or]
        by_cases h3 : (w1 ∩ w2).card ≥ min w1.card w2.card
        · rw [if_pos h3]
          have hbr := (card_inter_min_iff w1 w2).mp (ge_iff_le.mp h3)
          by_cases hc : w1.card ≤ w2.card
          · rw [if_pos hc] at hbr
            rw [if_pos hc]
            simp [hbr]
          · rw [if_neg hc] at hbr
            rw [if_neg hc]
            simp [hbr]
        · rw [if_neg h3]
          have h3' : ¬(min w1.card w2.card ≤ (w1 ∩ w2).card) :=
            fun hle => h3 (ge_iff_le.mpr hle)
          rw [card_inter_min_iff w1 w2] at h3'
          by_cases hc : w1.card ≤ w2.card
          · rw [if_pos hc] at h3'
            rw [if_pos hc]
            simp [h3']
          · rw [if_neg hc] at h3'
            rw [if_neg hc]
            simp [h3']

/-- C7: `are_similar` agrees everywhere with the spec's layered rule —
equality of normalized forms, substring containment, containment of the
smaller token set in the larger, then the sequence-similarity ratio against
the threshold — with blank normalized names never similar; in particular
`are_similar("Acme Corp", "acme", 0.85)` is true (substring layer, since the
trailing `Corp` is not stripped) and `are_similar("", "anything", 0.85)` is
false. -/
theorem are_similar_layered_spec :
    (∀ (a b : String) (t : ℚ), areSimilarNames a b t = areSimilarSpec a b t) ∧
    (∀ (a b : String) (t : ℚ),
      ((normalizeName a).toList.isEmpty || (normalizeName b).toList.isEmpty) = true →
      areSimilarNames a b t = false) ∧
    areSimilarNames "Acme Corp" "acme" (85 / 100) = true ∧
    areSimilarNames "" "anything" (85 / 100) = false := by
  refine ⟨are_similar_layers_eq, ?_, ?_, ?_⟩
  · intro a b t h
    unfold areSimilarNames
    simp only [h, if_true]
  · with_unfolding_all decide
  · with_unfolding_all decide

/-- C7 witness: the blank-name component applied at a concrete input. -/
theorem are_similar_layered_spec_witness :
    areSimilarNames "" "x" 0 = false :=
  are_similar_layered_spec.2.1 "" "x" 0 (by decide)

/-! ## C10 — member-identifier cleaning -/

theorem getColumn_mapAll (g : String → CellValue → CellValue) (b : Batch) (m : String) :
    getColumn (b.map (fun c => (c.1, c.2.map (g c.1)))) m =
      (getColumn b m).map (g m) := by
  unfold getColumn
  rw [List.find?_map]
  have he : ((fun c : Column => decide (c.1 = m)) ∘
      (fun c : Column => ((c.1, c.2.map (g c.1)) : Column))) =
      (fun c : Column => decide (c.1 = m)) := by
    funext c
    rfl
  rw [he]
  cases hf : b.find? (fun c => decide (c.1 = m)) with
  | none => rfl
  | some c =>
    have hc : c.1 = m := by simpa using List.find?_some hf
    subst hc
    rfl

theorem normalize_ok_columns (b out : Batch)
    (hok : DataNormalizer.normalize b = Except.ok out) :
    out = b.map (fun c => (c.1, c.2.map (colFun c.1))) := by
  rw [normalize_spec] at hok
  split_ifs at hok
  injection hok with hok
  exact hok.symm

/-- C10: after `clean_member_ids`, on any batch with a `member_id` column
that normalizes successfully, the output column is exactly the input column
mapped through `astype(str).str.strip().str.replace(r'[^a-zA-Z0-9]','')`:
every value is a (non-null) string of alphanumeric characters only, and a
missing value is stringified to the literal `"nan"`. -/
theorem member_ids_alphanumeric (b out : Batch)
    (hok : DataNormalizer.normalize b = Except.ok out) :
    getColumn out "member_id" = (getColumn b "member_id").map idStep ∧
    (∀ v ∈ getColumn out "member_id",
      ∃ s, v = CellValue.str s ∧ s.toList.all Char.isAlphanum = true) ∧
    idStep CellValue.null = CellValue.str "nan" := by
  have hcols := normalize_ok_columns b out hok
  have hmap : getColumn out "member_id" = (getColumn b "member_id").map idStep := by
    rw [hcols, getColumn_mapAll]
    rfl
  refine ⟨hmap, ?_, by decide⟩
  intro v hv
  rw [hmap] at hv
  obtain ⟨w, _, rfl⟩ := List.mem_map.mp hv
  refine ⟨String.mk ((pyStripList (pyStrCell w).toList).filter Char.isAlphanum), rfl, ?_⟩
  rw [List.all_eq_true]
  intro c hc
  exact List.of_mem_filter (by simpa using hc)

/-- C10 witness: the theorem applied to a concrete batch. -/
theorem member_ids_alphanumeric_witness :
    getColumn ((DataNormalizer.normalize sampleBatch).toOption.getD []) "member_id" =
      (getColumn sampleBatch "member_id").map idStep ∧
    idStep CellValue.null = CellValue.str "nan" := by
  have h := member_ids_alphanumeric sampleBatch
      ((DataNormalizer.normalize sampleBatch).toOption.getD [])
      (by with_unfolding_all decide)
  exact ⟨h.1, h.2.2⟩

/-! ## C3 — schema errors of the pipeline -/

/-- C3 counterexample: a batch with all four required columns present whose
`transaction_type` column holds only numbers (numeric dtype).  `normalize`
still raises — pandas' `.str` accessor fails on a numeric column — so
"missing or malformed values in present columns never cause normalize to
raise" is false, and the error is not a missing-column schema error. -/
theorem normalize_raises_on_numeric_txn :
    (requiredFields.all (fun f => hasColumn txnNumericBatch f)) = true ∧
    DataNormalizer.normalize txnNumericBatch =
      Except.error "AttributeError: Can only use .str accessor with string values" := by
  constructor
  · decide
  · with_unfolding_all decide

/-- C3 amended: `normalize` fails exactly when a required column is absent
*or* a present `transaction_type` column has numeric dtype (all cells
numeric or missing, at least one numeric — pandas' `.str` accessor raises
there); on success the commission-amount column is the input column mapped
through `clean_amount` with `NaN` repaired, so a missing amount value never
raises and becomes `0.0`.  Failure returns an `Except.error` carrying no
batch, so no partial output reaches the caller. -/
theorem normalize_error_iff (b : Batch) :
    ((DataNormalizer.normalize b).isOk = false ↔
      ((requiredFields.all (fun f => hasColumn b f)) = false ∨
        (hasColumn b "transaction_type" = true ∧
         isNumericDtype (getColumn b "transaction_type") = true))) ∧
    (∀ out, DataNormalizer.normalize b = Except.ok out →
      getColumn out "commission_amount" =
        (getColumn b "commission_amount").map (fun v => fixNaAmount (amountStep v)) ∧
      fixNaAmount (amountStep CellValue.null) = CellValue.num (PyFloat.finite 0)) := by
  rw [normalize_spec]
  split_ifs with h1 h2 h3
  · refine ⟨⟨fun _ => Or.inl ?_, fun _ => rfl⟩, fun out hout => by simp at hout⟩
    simp only [requiredFields, List.all_cons, List.all_nil, Bool.and_true]
    rw [h1]
    simp
  · refine ⟨⟨fun _ => Or.inr ?_, fun _ => rfl⟩, fun out hout => by simp at hout⟩
    exact Bool.and_eq_true_iff.mp h2
  · exact ⟨⟨fun _ => Or.inl h3, fun _ => rfl⟩, fun out hout => by simp at hout⟩
  · constructor
    · constructor
      · intro hfalse
        simp [Except.isOk, Except.toBool] at hfalse
      · intro hor
        rcases hor with h | h
        · exact absurd h h3
        · exact absurd (Bool.and_eq_true_iff.mpr h) h2
    · intro out hout
      injection hout with hout
      constructor
      · rw [← hout, getColumn_mapAll]
        rfl
      · decide

/-- C3 witness: the amended theorem applied to a failing and a succeeding
concrete batch. -/
theorem normalize_error_iff_witness :
    (DataNormalizer.normalize txnNumericBatch).isOk = false ∧
    getColumn ((DataNormalizer.normalize sampleBatch).toOption.getD [])
        "commission_amount" =
      (getColumn sampleBatch "commission_amount").map
        (fun v => fixNaAmount (amountStep v)) := by
  constructor
  · exact (normalize_error_iff txnNumericBatch).1.mpr (Or.inr ⟨by decide, by decide⟩)
  · exact ((normalize_error_iff sampleBatch).2 _ (by with_unfolding_all decide)).1

/-! ## C9 — the `"Unknown Agent"` sentinel on `agency_name` -/

theorem dropWhile_head_not {α} (p : α → Bool) (l : List α) (c : α)
    (h : (l.dropWhile p).head? = some c) : p c = false := by
  induction l with
  | nil => simp at h
  | cons a t ih =>
    rw [List.dropWhile_cons] at h
    by_cases hp : p a
    · rw [if_pos hp] at h
      exact ih h
    · rw [if_neg hp] at h
      rw [List.head?_cons] at h
      injection h with h
      subst h
      simpa using hp

theorem pyStripList_head_not_space (cs : List Char) (c : Char)
    (h : (pyStripList cs).head? = some c) : pyIsSpace c = false := by
  unfold pyStripList at h
  obtain ⟨t, ht⟩ := List.dropWhile_suffix (l := (cs.dropWhile pyIsSpace).reverse)
      (p := pyIsSpace)
  have hX2 : ((cs.dropWhile pyIsSpace).reverse.dropWhile pyIsSpace).reverse ++ t.reverse
      = cs.dropWhile pyIsSpace := by
    have h2 := congrArg List.reverse ht
    simpa [List.reverse_append] using h2
  cases hd : ((cs.dropWhile pyIsSpace).reverse.dropWhile pyIsSpace).reverse with
  | nil => rw [hd] at h; cases h
  | cons a rest =>
    rw [hd] at h
    rw [List.head?_cons] at h
    injection h with h
    rw [hd] at hX2
    have hXhead : (cs.dropWhile pyIsSpace).head? = some c := by
      rw [← hX2]
      simp [h]
    exact dropWhile_head_not pyIsSpace cs c hXhead

theorem mem_pySplitWsAux_ne_nil (cs : List Char) :
    ∀ acc w, w ∈ pySplitWsAux cs acc → w ≠ [] := by
  induction cs with
  | nil =>
    intro acc w hw
    unfold pySplitWsAux at hw
    by_cases h : acc.isEmpty
    · simp [h] at hw
    · rw [if_neg h] at hw
      simp only [List.mem_singleton] at hw
      subst hw
      simpa [List.isEmpty_iff] using h
  | cons c cs ih =>
    intro acc w hw
    unfold pySplitWsAux at hw
    by_cases hsp : pyIsSpace c
    · rw [if_pos hsp] at hw
      by_cases h : acc.isEmpty
      · rw [if_pos h] at hw
        exact ih [] w hw
      · rw [if_neg h] at hw
        rcases List.mem_cons.mp hw with hw | hw
        · subst hw
          simpa [List.isEmpty_iff] using h
        · exact ih [] w hw
    · rw [if_neg hsp] at hw
      exact ih (acc ++ [c]) w hw

theorem pySplitWsAux_ne_nil (cs : List Char) :
    ∀ acc, (acc ≠ [] ∨ ∃ c ∈ cs, pyIsSpace c = false) → pySplitWsAux cs acc ≠ [] := by
  induction cs with
  | nil =>
    intro acc h
    rcases h with h | h
    · unfold pySplitWsAux
      rw [if_neg (by simpa [List.isEmpty_iff] using h)]
      simp
    · obtain ⟨c, hc, _⟩ := h
      simp at hc
  | cons c cs ih =>
    intro acc h
    unfold pySplitWsAux
    by_cases hsp : pyIsSpace c
    · rw [if_pos hsp]
      by_cases hacc : acc.isEmpty
      · rw [if_pos hacc]
        apply ih
        right
        rcases h with h | h
        · exact absurd (List.isEmpty_iff.mp hacc) h
        · obtain ⟨d, hd, hds⟩ := h
          rcases List.mem_cons.mp hd with hd | hd
          · subst hd
            rw [hsp] at hds
            cases hds
          · exact ⟨d, hd, hds⟩
      · rw [if_neg hacc]
        simp
    · rw [if_neg hsp]
      exact ih (acc ++ [c]) (Or.inl (by simp))

theorem joinSpace_ne_nil (ws : List (List Char)) (h1 : ws ≠ [])
    (h2 : ∀ w ∈ ws, w ≠ []) : joinSpace ws ≠ [] := by
  cases ws with
  | nil => exact absurd rfl h1
  | cons w ws =>
    cases ws with
    | nil => exact h2 w (by simp)
    | cons w2 ws2 =>
      unfold joinSpace
      cases hw : w with
      | nil => simp
      | cons a t => simp

theorem cleanName_shape (v : CellValue) :
    ∃ s, cleanName v = CellValue.str s ∧ s ≠ "" := by
  unfold cleanName
  by_cases hna : pdIsna v
  · exact ⟨"Unknown Agent", by rw [if_pos hna], by decide⟩
  · rw [if_neg hna]
    by_cases hst : (pyStripList (pyStrCell v).toList).isEmpty
    · exact ⟨"Unknown Agent", by rw [if_pos hst], by decide⟩
    · rw [if_neg hst]
      refine ⟨_, rfl, ?_⟩
      intro he
      have hjoin : joinSpace ((pySplitWs (pyStripList (pyStrCell v).toList)).map
          pyCapitalize) = [] := by
        have := congrArg String.toList he
        simpa using this
      apply joinSpace_ne_nil _ ?_ ?_ hjoin
      · intro hmap
        have hws : pySplitWs (pyStripList (pyStrCell v).toList) = [] := by
          simpa using hmap
        cases hcs : pyStripList (pyStrCell v).toList with
        | nil => rw [hcs] at hst; simp at hst
        | cons c rest =>
          have hhead : pyIsSpace c = false := by
            apply pyStripList_head_not_space (pyStrCell v).toList
            rw [hcs]
            exact List.head?_cons
          apply pySplitWsAux_ne_nil (c :: rest) [] (Or.inr ⟨c, by simp, hhead⟩)
          rw [← hcs]
          exact hws
      · intro w hw
        obtain ⟨w0, hw0, rfl⟩ := List.mem_map.mp hw
        have : w0 ≠ [] := mem_pySplitWsAux_ne_nil _ _ _ hw0
        cases w0 with
        | nil => exact absurd rfl this
        | cons a t => simp [pyCapitalize]

/-- C9: the normalizer applies `clean_name` to `agency_name` exactly as to
`agent_name`: on a successfully normalized batch the output `agency_name`
column is the input column mapped through `clean_name`; every missing,
empty or whitespace-only value becomes the sentinel `"Unknown Agent"`, and
after normalization no `agency_name` value is missing or the empty
string. -/
theorem agency_name_sentinel (b out : Batch)
    (hok : DataNormalizer.normalize b = Except.ok out) :
    getColumn out "agency_name" = (getColumn b "agency_name").map cleanName ∧
    (∀ v ∈ getColumn out "agency_name",
      v ≠ CellValue.null ∧ v ≠ CellValue.str "") ∧
    (∀ v : CellValue, pdIsna v = true → cleanName v = CellValue.str "Unknown Agent") ∧
    (∀ s : String, (pyStripList s.toList).isEmpty = true →
      cleanName (CellValue.str s) = CellValue.str "Unknown Agent") := by
  have hcols := normalize_ok_columns b out hok
  have hmap : getColumn out "agency_name" = (getColumn b "agency_name").map cleanName := by
    rw [hcols, getColumn_mapAll]
    rfl
  refine ⟨hmap, ?_, ?_, ?_⟩
  · intro v hv
    rw [hmap] at hv
    obtain ⟨w, _, rfl⟩ := List.mem_map.mp hv
    obtain ⟨s, hs, hne⟩ := cleanName_shape w
    rw [hs]
    exact ⟨by simp, by simpa using hne⟩
  · intro v hv
    unfold cleanName
    rw [if_pos hv]
  · intro s hblank
    unfold cleanName
    rw [if_neg (fun h => by simp [pdIsna] at h)]
    rw [show (pyStrCell (CellValue.str s)) = s from rfl, if_pos hblank]

/-- C9 witness: the theorem applied to a concrete batch with a missing
agency name. -/
theorem agency_name_sentinel_witness :
    getColumn ((DataNormalizer.normalize sampleBatch).toOption.getD []) "agency_name" =
      (getColumn sampleBatch "agency_name").map cleanName ∧
    cleanName CellValue.null = CellValue.str "Unknown Agent" := by
  have h := agency_name_sentinel sampleBatch
      ((DataNormalizer.normalize sampleBatch).toOption.getD [])
      (by with_unfolding_all decide)
  exact ⟨h.1, h.2.2.1 CellValue.null rfl⟩

/-! ## C1 — the leaderboard -/

theorem insertBy_cases {α} (le : α → α → Bool) (a : α) (l : List α) :
    insertBy le a l = a :: l ∨
      ∃ b t, l = b :: t ∧ insertBy le a l = b :: insertBy le a t ∧ le a b = false := by
  cases l with
  | nil => exact Or.inl rfl
  | cons b t =>
    by_cases h : le a b
    · left
      simp [insertBy, h]
    · right
      exact ⟨b, t, rfl, by simp [insertBy, h], by simpa using h⟩

theorem insertBy_chain' {α} (le : α → α → Bool)
    (htot : ∀ a b, le a b = false → le b a = true) (a : α) (l : List α)
    (h : l.Chain' (fun x y => le x y = true)) :
    (insertBy le a l).Chain' (fun x y => le x y = true) := by
  induction l with
  | nil => simp [insertBy]
  | cons b t ih =>
    by_cases hab : le a b
    · unfold insertBy
      rw [if_pos hab]
      exact List.chain'_cons.mpr ⟨hab, h⟩
    · unfold insertBy
      rw [if_neg hab]
      have htail : (insertBy le a t).Chain' (fun x y => le x y = true) :=
        ih (h.tail)
      apply List.chain'_cons'.mpr
      refine ⟨?_, htail⟩
      intro y hy
      rcases insertBy_cases le a t with hc | ⟨c, t', ht', hc, _⟩
      · rw [hc] at hy
        rw [List.head?_cons] at hy
        injection hy with hy
        subst hy
        exact htot a b (by simpa using hab)
      · rw [hc] at hy
        rw [List.head?_cons] at hy
        injection hy with hy
        subst hy
        rw [ht'] at h
        exact (List.chain'_cons.mp h).1
      
theorem sortBy_chain' {α} (le : α → α → Bool)
    (htot : ∀ a b, le a b = false → le b a = true) (l : List α) :
    (sortBy le l).Chain' (fun x y => le x y = true) := by
  induction l with
  | nil => simp [sortBy]
  | cons a t ih => exact insertBy_chain' le htot a (sortBy le t) ih

theorem length_insertBy {α} (le : α → α → Bool) (a : α) (l : List α) :
    (insertBy le a l).length = l.length + 1 := by
  induction l with
  | nil => rfl
  | cons b t ih =>
    unfold insertBy
    by_cases h : le a b
    · rw [if_pos h]
      rfl
    · rw [if_neg h]
      simp [ih]

theorem length_sortBy {α} (le : α → α → Bool) (l : List α) :
    (sortBy le l).length = l.length := by
  induction l with
  | nil => rfl
  | cons a t ih =>
    unfold sortBy
    rw [length_insertBy, ih]
    rfl

theorem bankersRound_ge (x : ℚ) : ⌊x⌋ ≤ bankersRound x := by
  unfold bankersRound
  split_ifs <;> omega

theorem bankersRound_le (x : ℚ) : bankersRound x ≤ ⌊x⌋ + 1 := by
  unfold bankersRound
  split_ifs <;> omega

theorem bankersRound_mono {a b : ℚ} (h : a ≤ b) : bankersRound a ≤ bankersRound b := by
  have hfl : ⌊a⌋ ≤ ⌊b⌋ := Int.floor_mono h
  by_cases heq : ⌊a⌋ = ⌊b⌋
  · unfold bankersRound
    rw [heq]
    have hr : a - ⌊b⌋ ≤ b - ⌊b⌋ := by
      rw [← heq]
      push_cast [heq]
      linarith
    split_ifs <;> first | omega | linarith
  · calc bankersRound a ≤ ⌊a⌋ + 1 := bankersRound_le a
      _ ≤ ⌊b⌋ := by omega
      _ ≤ bankersRound b := bankersRound_ge b

theorem rnd2_mono {a b : ℚ} (h : a ≤ b) : rnd2 a ≤ rnd2 b := by
  unfold rnd2
  have := bankersRound_mono (show a * 100 ≤ b * 100 by linarith)
  have hcast : (bankersRound (a * 100) : ℚ) ≤ (bankersRound (b * 100) : ℚ) := by
    exact_mod_cast this
  linarith

theorem rnd2_nonneg {a : ℚ} (h : 0 ≤ a) : 0 ≤ rnd2 a := by
  unfold rnd2
  have h1 : (0 : ℤ) ≤ ⌊a * 100⌋ := Int.floor_nonneg.mpr (by linarith)
  have h2 := bankersRound_ge (a * 100)
  have : (0 : ℤ) ≤ bankersRound (a * 100) := by omega
  have hc : (0 : ℚ) ≤ (bankersRound (a * 100) : ℚ) := by exact_mod_cast this
  linarith

theorem checkSortedDesc_iff (l : List ℚ) :
    checkSortedDesc l = true ↔ l.Chain' (fun a b => b ≤ a) := by
  induction l with
  | nil => simp [checkSortedDesc]
  | cons a t ih =>
    cases t with
    | nil => simp [checkSortedDesc]
    | cons b t2 =>
      unfold checkSortedDesc
      rw [Bool.and_eq_true, List.chain'_cons, ih]
      constructor
      · rintro ⟨h1, h2⟩
        exact ⟨by simpa using h1, h2⟩
      · rintro ⟨h1, h2⟩
        exact ⟨by simpa using h1, h2⟩

theorem mem_insertBy {α} (le : α → α → Bool) (a x : α) (l : List α) :
    x ∈ insertBy le a l ↔ x = a ∨ x ∈ l := by
  induction l with
  | nil => simp [insertBy]
  | cons b t ih =>
    unfold insertBy
    by_cases h : le a b
    · rw [if_pos h]
      simp
    · rw [if_neg h]
      simp only [List.mem_cons, ih]
      tauto

theorem mem_sortBy {α} (le : α → α → Bool) (x : α) (l : List α) :
    x ∈ sortBy le l ↔ x ∈ l := by
  induction l with
  | nil => simp [sortBy]
  | cons a t ih =>
    unfold sortBy
    rw [mem_insertBy]
    simp [ih]

theorem chain'_trivial {α} (R : α → α → Prop) (h : ∀ a b, R a b) (l : List α) :
    l.Chain' R := by
  induction l with
  | nil => exact List.chain'_nil
  | cons a t ih => exact List.chain'_cons'.mpr ⟨fun y _ => h a y, ih⟩

theorem rankedEntries_total_chain (period : String) (data : List TxnRow) :
    ((rankedEntries period data).map (·.total_commission)).Chain'
      (fun a b => b ≤ a) := by
  unfold rankedEntries
  rw [List.map_map, List.chain'_map]
  have hs := sortBy_chain'
    (fun e1 e2 : LeaderboardEntry => decide (e2.total_commission ≤ e1.total_commission))
    (fun a b hab => by
      simp only [decide_eq_false_iff_not, not_le] at hab
      simpa using le_of_lt hab)
    (agentEntries period data)
  exact hs.imp (fun a b hab => by
    simp only [decide_eq_true_eq] at hab
    exact rnd2_mono hab)

theorem mem_rankedEntries (period : String) (data : List TxnRow) (e : LeaderboardEntry)
    (he : e ∈ rankedEntries period data) :
    ∃ e0 ∈ agentEntries period data, e.total_commission = rnd2 e0.total_commission := by
  unfold rankedEntries at he
  obtain ⟨e0, he0, rfl⟩ := List.mem_map.mp he
  exact ⟨e0, (mem_sortBy _ _ _).mp he0, rfl⟩

/-- C1 counterexample: a normalized batch whose single agent has a negative
period total.  With `n = 2` the padding appends a zero-valued placeholder
after the negative total, the final sort verification fails, and
`calculate_top_performers` raises instead of returning two entries
(`pd.DataFrame([])` also raises when the period is empty, so "returns
exactly n entries for every normalized batch" is false). -/
theorem top_performers_counterexample :
    calculateTopPerformers 2 "2024-06" negativeRow = Except.error "Sort error" ∧
    calculateTopPerformers 2 "2024-06" ([] : List TxnRow) =
      Except.error "KeyError: total_commission" := by
  constructor
  · with_unfolding_all decide
  · with_unfolding_all decide

/-- C1 amended: for `n ≥ 1`, a period with at least one matching agent, and
— when there are fewer agents than `n` — non-negative per-agent totals,
`calculate_top_performers` returns exactly `n` entries: the ranked real
agents first (never displaced), then zero-valued `Agent_{k}` placeholders
with carriers `"N/A"` filling the deficit, with the rounded
`total_commission` sequence non-increasing. -/
theorem top_performers_amended (n : ℕ) (period : String) (data : List TxnRow)
    (_hn : 1 ≤ n)
    (hne : agentEntries period data ≠ [])
    (hpos : (agentEntries period data).length < n →
      ∀ e ∈ agentEntries period data, 0 ≤ e.total_commission) :
    ∃ result, calculateTopPerformers n period data = Except.ok result ∧
      result.length = n ∧
      (result.map (·.total_commission)).Chain' (fun a b => b ≤ a) ∧
      result = (rankedEntries period data).take n ++
        (List.range' ((rankedEntries period data).length + 1)
          (n - (rankedEntries period data).length)).map placeholderEntry ∧
      (∀ k : ℕ, placeholderEntry k =
        ⟨"Agent_" ++ natToStr k, 0, 0, 0, "N/A"⟩) := by
  have hempty : (agentEntries period data).isEmpty = false := by
    cases h : agentEntries period data with
    | nil => exact absurd h hne
    | cons a t => rfl
  have hlenR : (rankedEntries period data).length = (agentEntries period data).length := by
    unfold rankedEntries
    rw [List.length_map, length_sortBy]
  have hchainR := rankedEntries_total_chain period data
  by_cases hc : (rankedEntries period data).length < n
  · -- padding case
    set R := rankedEntries period data with hR
    set PH := (List.range' (R.length + 1) (n - R.length)).map placeholderEntry with hPH
    have hlenPH : PH.length = n - R.length := by
      rw [hPH, List.length_map, List.length_range']
    have hlenpad : (R ++ PH).length = n := by
      rw [List.length_append, hlenPH]
      omega
    have hPHtotals : PH.map (·.total_commission) =
        (List.range' (R.length + 1) (n - R.length)).map (fun _ => (0 : ℚ)) := by
      rw [hPH, List.map_map]
      rfl
    have hchain : ((R ++ PH).map (·.total_commission)).Chain' (fun a b => b ≤ a) := by
      rw [List.map_append]
      rw [List.chain'_append]
      refine ⟨hchainR, ?_, ?_⟩
      · rw [hPHtotals]
        exact (List.chain'_map _).mpr (chain'_trivial _ (fun _ _ => le_refl 0) _)
      · intro x hx y hy
        have hx' : x ∈ R.map (·.total_commission) := List.mem_of_mem_getLast? hx
        obtain ⟨e, he, rfl⟩ := List.mem_map.mp hx'
        obtain ⟨e0, he0, heq⟩ := mem_rankedEntries period data e he
        have h0 : (0 : ℚ) ≤ e.total_commission := by
          rw [heq]
          exact rnd2_nonneg (hpos (by omega) e0 he0)
        have hy0 : y = 0 := by
          rw [hPHtotals] at hy
          cases hrange : List.range' (R.length + 1) (n - R.length) with
          | nil => rw [hrange] at hy; simp at hy
          | cons k ks =>
            rw [hrange] at hy
            simp only [List.map_cons, List.head?_cons] at hy
            injection hy with hy
            exact hy.symm
        rw [hy0]
        exact h0
    have hcheck : checkSortedDesc (((R ++ PH).take n).map (·.total_commission)) = true := by
      rw [show (R ++ PH).take n = R ++ PH from by rw [← hlenpad, List.take_length]]
      exact (checkSortedDesc_iff _).mpr hchain
    have htake : (R ++ PH).take n = R ++ PH := by
      rw [← hlenpad, List.take_length]
    refine ⟨R ++ PH, ?_, ?_, ?_, ?_, fun k => rfl⟩
    · unfold calculateTopPerformers
      dsimp only []
      rw [if_neg (by rw [hempty]; simp)]
      rw [show (if (rankedEntries period data).length < n then
          rankedEntries period data ++
            (List.range' ((rankedEntries period data).length + 1)
              (n - (rankedEntries period data).length)).map placeholderEntry
        else rankedEntries period data) = R ++ PH from by
          rw [← hR, ← hPH]
          exact if_pos hc]
      rw [htake]
      rw [if_pos ((checkSortedDesc_iff _).mpr hchain)]
    · exact hlenpad
    · exact hchain
    · rw [List.take_of_length_le (le_of_lt hc)]
  · -- enough real agents
    set R := rankedEntries period data with hR
    have hlen : (R.take n).length = n := by
      rw [List.length_take]
      omega
    have hchain : ((R.take n).map (·.total_commission)).Chain' (fun a b => b ≤ a) := by
      rw [List.map_take]
      exact List.Chain'.prefix hchainR (List.take_prefix _ _)
    refine ⟨R.take n, ?_, hlen, hchain, ?_, fun k => rfl⟩
    · unfold calculateTopPerformers
      dsimp only []
      rw [if_neg (by rw [hempty]; simp)]
      rw [show (if (rankedEntries period data).length < n then
          rankedEntries period data ++
            (List.range' ((rankedEntries period data).length + 1)
              (n - (rankedEntries period data).length)).map placeholderEntry
        else rankedEntries period data) = R from by
          rw [← hR]
          exact if_neg hc]
      rw [if_pos ((checkSortedDesc_iff _).mpr hchain)]
    · rw [show n - R.length = 0 from by omega]
      simp

/-- C1 witness: the amended theorem at `n = 4` on the three-record scenario
batch (two real agents, two placeholders). -/
theorem top_performers_amended_witness :
    ∃ result, calculateTopPerformers 4 "2024-06" johnJaneRows = Except.ok result ∧
      result.length = 4 ∧
      (result.map (·.total_commission)).Chain' (fun a b => b ≤ a) ∧
      result = (rankedEntries "2024-06" johnJaneRows).take 4 ++
        (List.range' ((rankedEntries "2024-06" johnJaneRows).length + 1)
          (4 - (rankedEntries "2024-06" johnJaneRows).length)).map placeholderEntry ∧
      (∀ k : ℕ, placeholderEntry k = ⟨"Agent_" ++ natToStr k, 0, 0, 0, "N/A"⟩) :=
  top_performers_amended 4 "2024-06" johnJaneRows (by decide)
    (by with_unfolding_all decide)
    (fun _ => by with_unfolding_all decide)

/-! ## C2 — idempotence of the pipeline -/

theorem digitVal_digitChar (k : ℕ) (h : k < 10) : digitVal (Nat.digitChar k) = k := by
  interval_cases k <;> decide

theorem isDigit_digitChar (k : ℕ) (h : k < 10) : (Nat.digitChar k).isDigit = true := by
  interval_cases k <;> decide

theorem charsToNat_pad4 (y : ℕ) (h : y ≤ 9999) :
    charsToNat (pad4 y) = y := by
  unfold pad4 charsToNat
  simp only [List.foldl_cons, List.foldl_nil]
  rw [digitVal_digitChar _ (Nat.mod_lt _ (by norm_num)),
    digitVal_digitChar _ (Nat.mod_lt _ (by norm_num)),
    digitVal_digitChar _ (Nat.mod_lt _ (by norm_num)),
    digitVal_digitChar _ (Nat.mod_lt _ (by norm_num))]
  omega

theorem charsToNat_pad2 (m : ℕ) (h : m ≤ 99) :
    charsToNat (pad2 m) = m := by
  unfold pad2 charsToNat
  simp only [List.foldl_cons, List.foldl_nil]
  rw [digitVal_digitChar _ (Nat.mod_lt _ (by norm_num)),
    digitVal_digitChar _ (Nat.mod_lt _ (by norm_num))]
  omega

theorem parseYmd_valid (sep : Char) (cs : List Char) (d : PyDate)
    (h : parseYmd sep cs = some d) : validDate d = true := by
  unfold parseYmd at h
  split at h
  · dsimp only [] at h
    split_ifs at h with hv hvd
    · injection h with h
      rw [← h]
      exact hvd
  · cases h

theorem parseMdy_valid (cs : List Char) (d : PyDate)
    (h : parseMdy cs = some d) : validDate d = true := by
  unfold parseMdy at h
  split at h
  · dsimp only [] at h
    split_ifs at h with hv hvd
    · injection h with h
      rw [← h]
      exact hvd
  · cases h

theorem parseDmy_valid (cs : List Char) (d : PyDate)
    (h : parseDmy cs = some d) : validDate d = true := by
  unfold parseDmy at h
  split at h
  · dsimp only [] at h
    split_ifs at h with hv hvd
    · injection h with h
      rw [← h]
      exact hvd
  · cases h

theorem parseMixedDate_valid (v : CellValue) (d : PyDate)
    (h : parseMixedDate v = some d) : validDate d = true := by
  cases v with
  | null => cases h
  | num f => cases h
  | str s =>
    unfold parseMixedDate at h
    dsimp only [] at h
    cases h1 : parseYmd '-' s.toList with
    | some d1 =>
      rw [h1] at h
      simp only [Option.orElse] at h
      cases h
      exact parseYmd_valid _ _ _ h1
    | none =>
      rw [h1] at h
      simp only [Option.orElse] at h
      cases h2 : parseYmd '/' s.toList with
      | some d2 =>
        rw [h2] at h
        simp only [Option.orElse] at h
        cases h
        exact parseYmd_valid _ _ _ h2
      | none =>
        rw [h2] at h
        simp only [Option.orElse] at h
        cases h3 : parseMdy s.toList with
        | some d3 =>
          rw [h3] at h
          simp only [Option.orElse] at h
          cases h
          exact parseMdy_valid _ _ h3
        | none =>
          rw [h3] at h
          simp only [Option.orElse] at h
          exact parseDmy_valid _ _ h

theorem daysInMonth_le (y m : ℕ) : daysInMonth y m ≤ 31 := by
  unfold daysInMonth
  split_ifs <;> norm_num

theorem parseYmd_fmt (y m dd : ℕ)
    (hd : validDate ⟨y, m, dd⟩ = true) :
    parseYmd '-' (fmtIsoDate ⟨y, m, dd⟩).toList = some ⟨y, m, dd⟩ := by
  have hb := hd
  simp only [validDate, Bool.and_eq_true, decide_eq_true_eq] at hb
  obtain ⟨⟨⟨⟨⟨h1, h2⟩, h3⟩, h4⟩, h5⟩, h6⟩ := hb
  have hm99 : m ≤ 99 := le_trans h4 (by norm_num)
  have hd99 : dd ≤ 99 := le_trans h6 (le_trans (daysInMonth_le y m) (by norm_num))
  have hdig : ∀ k : ℕ, (Nat.digitChar (k % 10)).isDigit = true :=
    fun k => isDigit_digitChar _ (Nat.mod_lt _ (by norm_num))
  have hl : (fmtIsoDate ⟨y, m, dd⟩).toList =
      [Nat.digitChar (y / 1000 % 10), Nat.digitChar (y / 100 % 10),
       Nat.digitChar (y / 10 % 10), Nat.digitChar (y % 10), '-',
       Nat.digitChar (m / 10 % 10), Nat.digitChar (m % 10), '-',
       Nat.digitChar (dd / 10 % 10), Nat.digitChar (dd % 10)] := rfl
  have hcond : ('-' = '-' && '-' = '-' &&
      allDigits [Nat.digitChar (y / 1000 % 10), Nat.digitChar (y / 100 % 10),
        Nat.digitChar (y / 10 % 10), Nat.digitChar (y % 10),
        Nat.digitChar (m / 10 % 10), Nat.digitChar (m % 10),
        Nat.digitChar (dd / 10 % 10), Nat.digitChar (dd % 10)]) = true := by
    simp only [allDigits, List.all_cons, List.all_nil, hdig]
    decide
  have hy : charsToNat [Nat.digitChar (y / 1000 % 10), Nat.digitChar (y / 100 % 10),
      Nat.digitChar (y / 10 % 10), Nat.digitChar (y % 10)] = y := charsToNat_pad4 y h2
  have hmm : charsToNat [Nat.digitChar (m / 10 % 10), Nat.digitChar (m % 10)] = m :=
    charsToNat_pad2 m hm99
  have hdd : charsToNat [Nat.digitChar (dd / 10 % 10), Nat.digitChar (dd % 10)] = dd :=
    charsToNat_pad2 dd hd99
  rw [hl]
  show (if ('-' = '-' && '-' = '-' &&
      allDigits [Nat.digitChar (y / 1000 % 10), Nat.digitChar (y / 100 % 10),
        Nat.digitChar (y / 10 % 10), Nat.digitChar (y % 10),
        Nat.digitChar (m / 10 % 10), Nat.digitChar (m % 10),
        Nat.digitChar (dd / 10 % 10), Nat.digitChar (dd % 10)]) = true then
      if validDate ⟨charsToNat [Nat.digitChar (y / 1000 % 10), Nat.digitChar (y / 100 % 10),
          Nat.digitChar (y / 10 % 10), Nat.digitChar (y % 10)],
        charsToNat [Nat.digitChar (m / 10 % 10), Nat.digitChar (m % 10)],
        charsToNat [Nat.digitChar (dd / 10 % 10), Nat.digitChar (dd % 10)]⟩ = true then
        some (⟨charsToNat [Nat.digitChar (y / 1000 % 10), Nat.digitChar (y / 100 % 10),
          Nat.digitChar (y / 10 % 10), Nat.digitChar (y % 10)],
        charsToNat [Nat.digitChar (m / 10 % 10), Nat.digitChar (m % 10)],
        charsToNat [Nat.digitChar (dd / 10 % 10), Nat.digitChar (dd % 10)]⟩ : PyDate)
      else none
    else none) = some ⟨y, m, dd⟩
  rw [if_pos hcond, hy, hmm, hdd, if_pos hd]

theorem dateStep_idem (v : CellValue) : dateStep (dateStep v) = dateStep v := by
  cases hp : parseMixedDate v with
  | none =>
    have h0 : dateStep v = CellValue.null := by
      unfold dateStep
      rw [hp]
    rw [h0]
    rfl
  | some d =>
    have hv : validDate d = true := parseMixedDate_valid v d hp
    obtain ⟨y, m, dd⟩ := d
    have h0 : dateStep v = CellValue.str (fmtIsoDate ⟨y, m, dd⟩) := by
      unfold dateStep
      rw [hp]
    rw [h0]
    have hpm : parseMixedDate (CellValue.str (fmtIsoDate ⟨y, m, dd⟩)) =
        some ⟨y, m, dd⟩ := by
      show ((parseYmd '-' (fmtIsoDate ⟨y, m, dd⟩).toList).orElse fun _ =>
        (parseYmd '/' (fmtIsoDate ⟨y, m, dd⟩).toList).orElse fun _ =>
          (parseMdy (fmtIsoDate ⟨y, m, dd⟩).toList).orElse fun _ =>
            parseDmy (fmtIsoDate ⟨y, m, dd⟩).toList) = some ⟨y, m, dd⟩
      rw [parseYmd_fmt y m dd hv]
      rfl
    unfold dateStep
    rw [hpm]

theorem amount_idem (v : CellValue) :
    fixNaAmount (amountStep (fixNaAmount (amountStep v))) = fixNaAmount (amountStep v) := by
  cases hf : cleanAmount v with
  | finite q =>
    have h1 : fixNaAmount (amountStep v) = CellValue.num (PyFloat.finite q) := by
      unfold amountStep fixNaAmount
      rw [hf]
      rfl
    rw [h1]
    rfl
  | nan =>
    have h1 : fixNaAmount (amountStep v) = CellValue.num (PyFloat.finite 0) := by
      unfold amountStep fixNaAmount
      rw [hf]
      rfl
    rw [h1]
    rfl
  | inf =>
    have h1 : fixNaAmount (amountStep v) = CellValue.num PyFloat.inf := by
      unfold amountStep fixNaAmount
      rw [hf]
      rfl
    rw [h1]
    rfl
  | ninf =>
    have h1 : fixNaAmount (amountStep v) = CellValue.num PyFloat.ninf := by
      unfold amountStep fixNaAmount
      rw [hf]
      rfl
    rw [h1]
    rfl

theorem isUpper_iff (c : Char) : c.isUpper = true ↔ 65 ≤ c.toNat ∧ c.toNat ≤ 90 := by
  unfold Char.isUpper
  rw [Bool.and_eq_true]
  constructor
  · rintro ⟨ha, hb⟩
    exact ⟨by exact UInt32.le_def.mp (by simpa using ha),
           by exact UInt32.le_def.mp (by simpa using hb)⟩
  · rintro ⟨ha, hb⟩
    constructor
    · simpa using UInt32.le_def.mpr (by simpa using ha)
    · simpa using UInt32.le_def.mpr (by simpa using hb)

theorem isLower_iff (c : Char) : c.isLower = true ↔ 97 ≤ c.toNat ∧ c.toNat ≤ 122 := by
  unfold Char.isLower
  rw [Bool.and_eq_true]
  constructor
  · rintro ⟨ha, hb⟩
    exact ⟨by exact UInt32.le_def.mp (by simpa using ha),
           by exact UInt32.le_def.mp (by simpa using hb)⟩
  · rintro ⟨ha, hb⟩
    constructor
    · simpa using UInt32.le_def.mpr (by simpa using ha)
    · simpa using UInt32.le_def.mpr (by simpa using hb)

theorem isAlphanum_not_space (c : Char) (h : c.isAlphanum = true) :
    pyIsSpace c = false := by
  rw [pyIsSpace_toNat]
  simp only [decide_eq_false_iff_not]
  unfold Char.isAlphanum Char.isAlpha at h
  rw [Bool.or_eq_true, Bool.or_eq_true] at h
  rcases h with (h | h) | h
  · have := (isUpper_iff c).mp h
    omega
  · have := (isLower_iff c).mp h
    omega
  · have := (isDigit_iff c).mp h
    omega

theorem idStep_idem (v : CellValue) : idStep (idStep v) = idStep v := by
  have hs : pyStripList ((pyStripList (pyStrCell v).toList).filter Char.isAlphanum) =
      (pyStripList (pyStrCell v).toList).filter Char.isAlphanum :=
    pyStripList_eq_self_of_mem _ (fun c hc =>
      isAlphanum_not_space c (List.mem_filter.mp hc).2)
  have hf : ((pyStripList (pyStrCell v).toList).filter Char.isAlphanum).filter
        Char.isAlphanum =
      (pyStripList (pyStrCell v).toList).filter Char.isAlphanum :=
    List.filter_eq_self.mpr (fun c hc => (List.mem_filter.mp hc).2)
  show CellValue.str (String.mk ((pyStripList ((pyStripList
      (pyStrCell v).toList).filter Char.isAlphanum)).filter Char.isAlphanum)) = idStep v
  rw [hs, hf]
  rfl

theorem txnStep_idem (v : CellValue) : txnStep (txnStep v) = txnStep v := by
  have hvals : ∀ p ∈ transactionMapping,
      txnStep (CellValue.str p.2) = CellValue.str p.2 := by
    intro p hp
    fin_cases hp <;> with_unfolding_all decide
  have hother : txnStep (CellValue.str "Other") = CellValue.str "Other" := by
    with_unfolding_all decide
  cases v with
  | null => exact hother
  | num f => exact hother
  | str s =>
    have h0 : txnStep (CellValue.str s) =
        match transactionMapping.lookup (String.mk (lowerChars s.toList)) with
        | some t => CellValue.str t
        | none => CellValue.str "Other" := rfl
    cases hl : transactionMapping.lookup (String.mk (lowerChars s.toList)) with
    | none =>
      rw [h0, hl]
      exact hother
    | some t =>
      rw [h0, hl]
      have hmem : (String.mk (lowerChars s.toList), t) ∈ transactionMapping :=
        lookup_mem_pairs _ _ _ hl
      exact hvals _ hmem

theorem pySplitWsAux_cons (d : Char) (ds : List Char) (acc : List Char) :
    pySplitWsAux (d :: ds) acc =
      if pyIsSpace d = true then
        (if acc.isEmpty = true then pySplitWsAux ds [] else acc :: pySplitWsAux ds [])
      else pySplitWsAux ds (acc ++ [d]) := rfl

theorem pySplitWsAux_nil_eq (acc : List Char) :
    pySplitWsAux [] acc = if acc.isEmpty = true then [] else [acc] := rfl

theorem pySplitWsAux_no_space (cs : List Char) :
    ∀ acc, (∀ c ∈ acc, pyIsSpace c = false) →
      ∀ w ∈ pySplitWsAux cs acc, ∀ c ∈ w, pyIsSpace c = false := by
  induction cs with
  | nil =>
    intro acc hacc w hw c hc
    rw [pySplitWsAux_nil_eq] at hw
    by_cases h : acc.isEmpty = true
    · simp [h] at hw
    · rw [if_neg h] at hw
      simp only [List.mem_singleton] at hw
      subst hw
      exact hacc c hc
  | cons d ds ih =>
    intro acc hacc w hw c hc
    rw [pySplitWsAux_cons] at hw
    by_cases hd : pyIsSpace d = true
    · rw [if_pos hd] at hw
      by_cases h : acc.isEmpty = true
      · rw [if_pos h] at hw
        exact ih [] (by simp) w hw c hc
      · rw [if_neg h] at hw
        rcases List.mem_cons.mp hw with h1 | h1
        · subst h1
          exact hacc c hc
        · exact ih [] (by simp) w h1 c hc
    · rw [if_neg hd] at hw
      refine ih (acc ++ [d]) ?_ w hw c hc
      intro e he
      rcases List.mem_append.mp he with h1 | h1
      · exact hacc e h1
      · rw [List.mem_singleton.mp h1]
        exact Bool.eq_false_iff.mpr hd

theorem pyCapitalize_idem (w : List Char) :
    pyCapitalize (pyCapitalize w) = pyCapitalize w := by
  cases w with
  | nil => rfl
  | cons c cs =>
    show pyToUpper (pyToUpper c) :: (cs.map pyToLower).map pyToLower =
      pyToUpper c :: cs.map pyToLower
    rw [pyToUpper_pyToUpper, List.map_map]
    congr 1
    have h : cs.map (pyToLower ∘ pyToLower) = cs.map pyToLower :=
      List.map_congr_left (fun a _ => pyToLower_pyToLower a)
    exact h

theorem pyCapitalize_no_space (w : List Char)
    (h : ∀ c ∈ w, pyIsSpace c = false) :
    ∀ c ∈ pyCapitalize w, pyIsSpace c = false := by
  cases w with
  | nil =>
    intro c hc
    cases hc
  | cons d cs =>
    intro c hc
    rcases List.mem_cons.mp hc with h1 | h1
    · subst h1
      rw [pyIsSpace_pyToUpper]
      exact h d (List.mem_cons_self d cs)
    · obtain ⟨a, ha, rfl⟩ := List.mem_map.mp h1
      rw [pyIsSpace_pyToLower]
      exact h a (List.mem_cons_of_mem d ha)

theorem pyCapitalize_ne_nil (w : List Char) (h : w ≠ []) : pyCapitalize w ≠ [] := by
  cases w with
  | nil => exact absurd rfl h
  | cons c cs => exact List.cons_ne_nil _ _

theorem joinSpace_head? (w : List Char) (ws : List (List Char)) (hw : w ≠ []) :
    (joinSpace (w :: ws)).head? = w.head? := by
  cases ws with
  | nil => rfl
  | cons w2 rest =>
    show (w ++ ' ' :: joinSpace (w2 :: rest)).head? = w.head?
    cases w with
    | nil => exact absurd rfl hw
    | cons c cs => rfl

theorem joinSpace_getLast? (ws : List (List Char)) (hne : ws ≠ [])
    (h2 : ∀ w ∈ ws, w ≠ []) :
    ∃ w ∈ ws, (joinSpace ws).getLast? = w.getLast? := by
  induction ws with
  | nil => exact absurd rfl hne
  | cons w rest ih =>
    cases rest with
    | nil => exact ⟨w, by simp, rfl⟩
    | cons w2 rest2 =>
      obtain ⟨w', hw', heq⟩ := ih (by simp)
        (fun u hu => h2 u (List.mem_cons_of_mem w hu))
      refine ⟨w', List.mem_cons_of_mem w hw', ?_⟩
      show (w ++ ' ' :: joinSpace (w2 :: rest2)).getLast? = w'.getLast?
      have hJne : joinSpace (w2 :: rest2) ≠ [] :=
        joinSpace_ne_nil _ (by simp)
          (fun u hu => h2 u (List.mem_cons_of_mem w hu))
      cases hJ : joinSpace (w2 :: rest2) with
      | nil => exact absurd hJ hJne
      | cons x J' =>
        rw [hJ] at heq
        rw [List.getLast?_append_of_ne_nil _ (List.cons_ne_nil ' ' (x :: J')),
          List.getLast?_cons_cons]
        exact heq

theorem pySplitWsAux_word (w : List Char)
    (hsp : ∀ c ∈ w, pyIsSpace c = false) :
    ∀ rest acc, pySplitWsAux (w ++ rest) acc = pySplitWsAux rest (acc ++ w) := by
  induction w with
  | nil =>
    intro rest acc
    simp
  | cons c cs ih =>
    intro rest acc
    rw [List.cons_append, pySplitWsAux_cons,
      if_neg (by rw [hsp c (List.mem_cons_self c cs)]; simp),
      ih (fun a ha => hsp a (List.mem_cons_of_mem c ha)) rest (acc ++ [c]),
      List.append_assoc]
    rfl

theorem splitWs_joinSpace (ws : List (List Char))
    (hwne : ∀ w ∈ ws, w ≠ [])
    (hsp : ∀ w ∈ ws, ∀ c ∈ w, pyIsSpace c = false) :
    pySplitWs (joinSpace ws) = ws := by
  show pySplitWsAux (joinSpace ws) [] = ws
  induction ws with
  | nil => rfl
  | cons w rest ih =>
    have hwE : w.isEmpty = false :=
      Bool.eq_false_iff.mpr (fun h => hwne w (by simp) (List.isEmpty_iff.mp h))
    cases rest with
    | nil =>
      show pySplitWsAux (joinSpace [w]) [] = [w]
      have hj : joinSpace [w] = w := rfl
      rw [hj]
      have h2 := pySplitWsAux_word w (hsp w (by simp)) [] []
      rw [List.append_nil, List.nil_append] at h2
      rw [h2, pySplitWsAux_nil_eq, if_neg (by rw [hwE]; simp)]
    | cons w2 rest2 =>
      have hj : joinSpace (w :: w2 :: rest2) = w ++ ' ' :: joinSpace (w2 :: rest2) := rfl
      rw [hj]
      have h2 := pySplitWsAux_word w (hsp w (by simp)) (' ' :: joinSpace (w2 :: rest2)) []
      rw [List.nil_append] at h2
      rw [h2, pySplitWsAux_cons, if_pos (by rfl), if_neg (by rw [hwE]; simp)]
      have ih2 := ih (fun u hu => hwne u (List.mem_cons_of_mem w hu))
        (fun u hu => hsp u (List.mem_cons_of_mem w hu))
      rw [ih2]

theorem cleanName_fixed (ws : List (List Char))
    (hne : ws ≠ [])
    (hwne : ∀ w ∈ ws, w ≠ [])
    (hsp : ∀ w ∈ ws, ∀ c ∈ w, pyIsSpace c = false)
    (hcap : ∀ w ∈ ws, pyCapitalize w = w) :
    cleanName (CellValue.str (String.mk (joinSpace ws))) =
      CellValue.str (String.mk (joinSpace ws)) := by
  have hJne : joinSpace ws ≠ [] := joinSpace_ne_nil ws hne hwne
  have hhead : ∀ c, (joinSpace ws).head? = some c → pyIsSpace c = false := by
    intro c hc
    cases ws with
    | nil => exact absurd rfl hne
    | cons w rest =>
      rw [joinSpace_head? w rest (hwne w (by simp))] at hc
      exact hsp w (by simp) c (List.mem_of_mem_head? hc)
  have hlast : ∀ c, (joinSpace ws).getLast? = some c → pyIsSpace c = false := by
    intro c hc
    obtain ⟨w, hw, heq⟩ := joinSpace_getLast? ws hne hwne
    rw [heq] at hc
    exact hsp w hw c (List.mem_of_mem_getLast? hc)
  have hstrip : pyStripList (joinSpace ws) = joinSpace ws :=
    pyStripList_eq_self _ hhead hlast
  have hsplit : pySplitWs (joinSpace ws) = ws := splitWs_joinSpace ws hwne hsp
  have hmap : ws.map pyCapitalize = ws := by
    have h : ws.map pyCapitalize = ws.map id :=
      List.map_congr_left (fun a ha => hcap a ha)
    rwa [List.map_id] at h
  unfold cleanName
  rw [if_neg (fun h => by simp [pdIsna] at h)]
  dsimp only []
  have hcell : (pyStrCell (CellValue.str (String.mk (joinSpace ws)))).toList =
      joinSpace ws := rfl
  rw [hcell, hstrip,
    if_neg (fun h => hJne (List.isEmpty_iff.mp h)),
    hsplit, hmap]

theorem cleanName_not_na (v : CellValue) (hna : pdIsna v = false)
    (hst : (pyStripList (pyStrCell v).toList).isEmpty = false) :
    cleanName v = CellValue.str (String.mk (joinSpace
      ((pySplitWs (pyStripList (pyStrCell v).toList)).map pyCapitalize))) := by
  unfold cleanName
  rw [if_neg (by rw [hna]; simp)]
  dsimp only []
  rw [if_neg (by rw [hst]; simp)]

theorem cleanName_idem (v : CellValue) : cleanName (cleanName v) = cleanName v := by
  have hUA : cleanName (CellValue.str "Unknown Agent") =
      CellValue.str "Unknown Agent" := by
    with_unfolding_all decide
  by_cases hna : pdIsna v = true
  · have h1 : cleanName v = CellValue.str "Unknown Agent" := by
      unfold cleanName
      rw [if_pos hna]
    rw [h1]
    exact hUA
  · have hna' : pdIsna v = false := Bool.eq_false_iff.mpr hna
    by_cases hst : (pyStripList (pyStrCell v).toList).isEmpty = true
    · have h1 : cleanName v = CellValue.str "Unknown Agent" := by
        unfold cleanName
        rw [if_neg hna]
        dsimp only []
        rw [if_pos hst]
      rw [h1]
      exact hUA
    · have hst' : (pyStripList (pyStrCell v).toList).isEmpty = false :=
        Bool.eq_false_iff.mpr hst
      have h1 := cleanName_not_na v hna' hst'
      rw [h1]
      have hstne : pyStripList (pyStrCell v).toList ≠ [] :=
        fun h => hst (by rw [h]; rfl)
      have hsne : pySplitWs (pyStripList (pyStrCell v).toList) ≠ [] := by
        apply pySplitWsAux_ne_nil
        refine Or.inr ?_
        cases hd : pyStripList (pyStrCell v).toList with
        | nil => exact absurd hd hstne
        | cons c cs =>
          refine ⟨c, by simp, ?_⟩
          exact pyStripList_head_not_space _ c (by rw [hd]; rfl)
      refine cleanName_fixed _ ?_ ?_ ?_ ?_
      · intro h
        exact hsne (List.map_eq_nil_iff.mp h)
      · intro w hw
        obtain ⟨w0, hw0, rfl⟩ := List.mem_map.mp hw
        exact pyCapitalize_ne_nil w0 (mem_pySplitWsAux_ne_nil _ _ _ hw0)
      · intro w hw
        obtain ⟨w0, hw0, rfl⟩ := List.mem_map.mp hw
        exact pyCapitalize_no_space w0
          (pySplitWsAux_no_space _ [] (by simp) w0 hw0)
      · intro w hw
        obtain ⟨w0, hw0, rfl⟩ := List.mem_map.mp hw
        exact pyCapitalize_idem w0

theorem colFun_idem (n : String) (v : CellValue) :
    colFun n (colFun n v) = colFun n v := by
  unfold colFun
  by_cases h1 : n ∈ dateColumns
  · rw [if_pos h1]
    exact dateStep_idem v
  · rw [if_neg h1]
    by_cases h2 : n = "commission_amount"
    · rw [if_pos h2]
      exact amount_idem v
    · rw [if_neg h2]
      by_cases h3 : n = "agent_name"
      · rw [if_pos h3]
        exact cleanName_idem v
      · rw [if_neg h3]
        by_cases h4 : n = "agency_name"
        · rw [if_pos h4]
          exact cleanName_idem v
        · rw [if_neg h4]
          by_cases h5 : n = "transaction_type"
          · rw [if_pos h5]
            exact txnStep_idem v
          · rw [if_neg h5]
            by_cases h6 : n = "member_id"
            · rw [if_pos h6]
              exact idStep_idem v
            · rw [if_neg h6]
              rfl

theorem hasColumn_mapAll (g : String → CellValue → CellValue) (b : Batch) (m : String) :
    hasColumn (b.map (fun c => (c.1, c.2.map (g c.1)))) m = hasColumn b m := by
  unfold hasColumn
  rw [List.any_map]
  congr 1

theorem txnStep_is_str (v : CellValue) : ∃ s, txnStep v = CellValue.str s := by
  cases v with
  | null => exact ⟨"Other", rfl⟩
  | num f => exact ⟨"Other", rfl⟩
  | str s =>
    have h0 : txnStep (CellValue.str s) =
        match transactionMapping.lookup (String.mk (lowerChars s.toList)) with
        | some t => CellValue.str t
        | none => CellValue.str "Other" := rfl
    cases hl : transactionMapping.lookup (String.mk (lowerChars s.toList)) with
    | none =>
      rw [h0, hl]
      exact ⟨"Other", rfl⟩
    | some t =>
      rw [h0, hl]
      exact ⟨t, rfl⟩

theorem isNumericDtype_of_str (vs : List CellValue)
    (h : ∀ v ∈ vs, ∃ s, v = CellValue.str s) : isNumericDtype vs = false := by
  cases vs with
  | nil => rfl
  | cons v vs =>
    obtain ⟨s, rfl⟩ := h v (by simp)
    unfold isNumericDtype
    simp

theorem colFun_txn : colFun "transaction_type" = txnStep := by
  unfold colFun
  rw [if_neg (by decide), if_neg (by decide), if_neg (by decide), if_neg (by decide),
    if_pos rfl]

theorem map_colFun_idem (b : Batch) :
    (b.map (fun c => (c.1, c.2.map (colFun c.1)))).map
        (fun c => (c.1, c.2.map (colFun c.1))) =
      b.map (fun c => (c.1, c.2.map (colFun c.1))) := by
  rw [List.map_map]
  apply List.map_congr_left
  intro c _
  show (c.1, (c.2.map (colFun c.1)).map (colFun c.1)) = (c.1, c.2.map (colFun c.1))
  rw [List.map_map]
  congr 1
  exact List.map_congr_left (fun v _ => colFun_idem c.1 v)

theorem normalize_rerun (b out : Batch)
    (hok : DataNormalizer.normalize b = Except.ok out) :
    DataNormalizer.normalize out = Except.ok out := by
  rw [normalize_spec] at hok
  split_ifs at hok with h1 h2 h3
  injection hok with hout
  subst hout
  rw [normalize_spec]
  have hA : hasColumn (b.map (fun c => (c.1, c.2.map (colFun c.1))))
      "commission_amount" = true := by
    rw [hasColumn_mapAll]
    cases hc : hasColumn b "commission_amount" with
    | false => exact absurd hc h1
    | true => rfl
  rw [if_neg (by rw [hA]; simp)]
  have hN : isNumericDtype (getColumn (b.map (fun c => (c.1, c.2.map (colFun c.1))))
      "transaction_type") = false := by
    rw [getColumn_mapAll, colFun_txn]
    apply isNumericDtype_of_str
    intro v hv
    obtain ⟨u, _, rfl⟩ := List.mem_map.mp hv
    exact txnStep_is_str u
  rw [if_neg (by rw [hN, Bool.and_false]; simp)]
  have hR : (requiredFields.all fun f =>
      hasColumn (b.map (fun c => (c.1, c.2.map (colFun c.1)))) f) = true := by
    have he : (fun f => hasColumn (b.map (fun c => (c.1, c.2.map (colFun c.1)))) f) =
        (fun f => hasColumn b f) := funext (fun f => hasColumn_mapAll colFun b f)
    rw [he]
    cases hc : requiredFields.all fun f => hasColumn b f with
    | false => exact absurd hc h3
    | true => rfl
  rw [if_neg (by rw [hR]; simp)]
  rw [map_colFun_idem]

/-- C2: the normalization pipeline is idempotent.  Each stage's cell
transform — date canonicalization, amount cleaning (with the validator's
NaN repair), name cleaning, transaction-type standardization, and member-id
cleaning — is a value-level idempotent, and whenever `normalize` succeeds on
a batch, running it again on the output returns that output unchanged. -/
theorem normalize_idempotent :
    (∀ v, dateStep (dateStep v) = dateStep v) ∧
    (∀ v, fixNaAmount (amountStep (fixNaAmount (amountStep v))) =
      fixNaAmount (amountStep v)) ∧
    (∀ v, cleanName (cleanName v) = cleanName v) ∧
    (∀ v, txnStep (txnStep v) = txnStep v) ∧
    (∀ v, idStep (idStep v) = idStep v) ∧
    ∀ b out, DataNormalizer.normalize b = Except.ok out →
      DataNormalizer.normalize out = Except.ok out :=
  ⟨dateStep_idem, amount_idem, cleanName_idem, txnStep_idem, idStep_idem,
    normalize_rerun⟩

/-- C2 witness: `normalize` succeeds on the concrete sample batch, and
re-running it on the produced output is the identity on that output. -/
theorem normalize_idempotent_witness :
    DataNormalizer.normalize
        (sampleBatch.map (fun c => (c.1, c.2.map (colFun c.1)))) =
      Except.ok (sampleBatch.map (fun c => (c.1, c.2.map (colFun c.1)))) :=
  normalize_idempotent.2.2.2.2.2 sampleBatch _ (by with_unfolding_all decide)
